import Mathlib

/-!
# Verification of the `stronger` per-locus tandem-repeat caller

Shallow embedding of `src/stronger/call/caller.py` (the repeat-count
estimator `get_repeat_count`, the per-read extraction walk inside
`call_locus`, and the per-locus orchestration of `call_locus`), together
with theorems settling the specification claims about it.

Sequences are embedded as `List Char` (Python `str`), Python ints as `ℤ`,
Python floats as `ℚ` (the claims under study only concern exact zero /
sign / equality structure of the float expressions involved), and
fallible Python code as `Option` / `Except` values, where `none` /
`.error` stands for a raised exception.
-/

namespace Stronger

/-! ## Scoring constants (caller.py lines 34-38) -/

/-- `match_score = 2` (caller.py line 34). -/
def match_score : ℤ := 2

/-- `mismatch_penalty = 7` (caller.py line 35). -/
def mismatch_penalty : ℤ := 7

/-- `indel_penalty = 5` (caller.py line 36). -/
def indel_penalty : ℤ := 5

/-- The substitution matrix `parasail.matrix_create("ACGT", match_score, -1 * mismatch_penalty)`
(caller.py line 38): identical characters score `match_score`, differing
characters score `-mismatch_penalty`. -/
def subScore (a b : Char) : ℤ := if a = b then match_score else -mismatch_penalty

/-! ## Semi-global alignment kernel

Modelled from the spec: the alignment kernel itself is the external
`parasail` library, which is not part of this repository's sources.  The
code calls `parasail.sg_de_stats_rowcol_scan_sat` (free gaps at the
*end* of the database: the database's trailing residues may stay
unaligned at no cost, so the query is anchored at the database's start)
and `parasail.sg_db_stats_rowcol_scan_sat` (free gaps at the
*beginning* of the database: its leading residues may stay unaligned, so
the query is anchored at the database's end).  §4.1 of the spec calls
these `score_prefix_free_query_tail` (for right-extending into the TR)
and `score_prefix_free_query_head` (for left-extending), with
substitution scores match = +2 / mismatch = −7 and an affine gap whose
open and extend penalties coincide, hence a linear gap costing the
penalty per inserted/deleted base.

We implement the corresponding dynamic programme over `H[i][j]` (query
prefix length `i`, db prefix length `j`):
`H[i][j] = max (H[i-1][j-1] + sub, H[i-1][j] - g, H[i][j-1] - g)`,
`H[i][0] = -g*i` (query-start gaps are penalised in both variants), and

* `sg_de`: `H[0][j] = -g*j`, final score `max_j H[m][j]` (free db-end);
* `sg_db`: `H[0][j] = 0` (free db-begin), final score `H[m][n]`. -/

/-- One DP row continuation: given the previous row's remaining cells
`above :: ps`, the previous row's cell `diag` diagonally up-left, and the
current row's cell `left` immediately to the left, produce the remaining
cells of the current row along the db suffix `d :: ds`. -/
def dpRowAux (g : ℤ) (c : Char) : ℤ → ℤ → List Char → List ℤ → List ℤ
  | diag, left, d :: ds, above :: ps =>
      let v := max (max (diag + subScore c d) (above - g)) (left - g)
      v :: dpRowAux g c above v ds ps
  | _, _, _, _ => []

/-- The DP row for query character `c` over database `db`, from the
previous row `prev`; the new row's column-0 cell is `prev`'s column-0
cell minus the gap penalty (one more query-start gap). -/
def dpRow (g : ℤ) (c : Char) (db : List Char) (prev : List ℤ) : List ℤ :=
  match prev with
  | [] => []
  | p0 :: ps => (p0 - g) :: dpRowAux g c p0 (p0 - g) db ps

/-- Iterate `dpRow` over the query characters, returning the final row
`H[m][·]`. -/
def sgRows (g : ℤ) (db : List Char) : List Char → List ℤ → List ℤ
  | [], row => row
  | c :: cs, row => sgRows g db cs (dpRow g c db row)

/-- Maximum of a list of scores (the list is never empty where used: DP
rows have length `db.length + 1`). -/
def listMax (l : List ℤ) : ℤ := l.foldl max (l.headD 0)

/-- `parasail.sg_de…(q, db, g, g, matrix).score`: gaps at the end of the
database are free — row 0 is `-g*j`, and the final score maximises the
last row over all columns. -/
def sgScoreFwd (g : ℤ) (q db : List Char) : ℤ :=
  let row0 : List ℤ := (List.range (db.length + 1)).map (fun j : ℕ => -(g * (j : ℤ)))
  listMax (sgRows g db q row0)

/-- `parasail.sg_db…(q, db, g, g, matrix).score`: gaps at the beginning
of the database are free — row 0 is all zeroes, and the final score is
the last row's last cell. -/
def sgScoreRev (g : ℤ) (q db : List Char) : ℤ :=
  let row0 : List ℤ := List.replicate (db.length + 1) 0
  (sgRows g db q row0).getLastD 0

/-! ## `get_repeat_count` (caller.py lines 41-84)

The Python function keeps

* `sizes_and_scores`, an insertion-ordered `dict` from candidate copy
  number to alignment score — embedded as an association list to which
  new keys are appended at the end;
* `to_explore`, a list used as a stack via `append`/`pop()` — embedded
  as a list whose head is the element Python's `pop()` removes next;
* `moving`, initialised to `0` at line 48 and never reassigned, so the
  window bounds `size_to_explore - (1 if moving < 1 else 0)` and
  `size_to_explore + (2 if moving > -1 else 1)` are always
  `size_to_explore - 1` and `size_to_explore + 2`.

The loop body is embedded with the score computation abstracted into a
function `s : ℤ → ℤ` (the Python code computes each score at most once,
caches it, and the computation is pure, so this is score-for-score the
same); `get_repeat_count` instantiates `s` with the parasail-modelled
kernel exactly as lines 66-72 do.  The Python loop carries no fuel; the
embedding takes a fuel argument and returns `none` when it is exhausted
(and also on the `ValueError` that Python's `max` would raise on an
empty sequence). -/

/-- Front-first lookup in an insertion-ordered association list
(Python `dict.get` / `in`). -/
def memoLookup : List (ℤ × ℤ) → ℤ → Option ℤ
  | [], _ => none
  | p :: ps, i => if p.1 = i then some p.2 else memoLookup ps i

/-- The inner `for i in range(size_to_explore - 1, size_to_explore + 2)`
loop (caller.py lines 61-74): skip negative `i`, memoise `s i` on first
sight, and collect `szs`. -/
def evalWindowGo (s : ℤ → ℤ) :
    List ℤ → List (ℤ × ℤ) → List (ℤ × ℤ) → List (ℤ × ℤ) × List (ℤ × ℤ)
  | [], memo, szs => (memo, szs)
  | i :: is, memo, szs =>
      if i < 0 then evalWindowGo s is memo szs
      else
        match memoLookup memo i with
        | some rs => evalWindowGo s is memo (szs ++ [(i, rs)])
        | none => evalWindowGo s is (memo ++ [(i, s i)]) (szs ++ [(i, s i)])

/-- Evaluate the window `{k-1, k, k+1}` around the popped candidate `k`
(`moving` is constantly `0`, see above), returning the grown memo and
`szs`. -/
def evalWindow (s : ℤ → ℤ) (k : ℤ) (memo : List (ℤ × ℤ)) :
    List (ℤ × ℤ) × List (ℤ × ℤ) :=
  evalWindowGo s [k - 1, k, k + 1] memo []

/-- Python's `max(l, key=lambda x: x[1])`: the first element attaining
the maximal second component (`max` only replaces its current best on a
strictly greater key), `none` on the empty list (Python raises
`ValueError` there). -/
def pythonMaxBySnd : List (ℤ × ℤ) → Option (ℤ × ℤ)
  | [] => none
  | x :: xs => some (xs.foldl (fun a b => if b.2 > a.2 then b else a) x)

/-- The `while to_explore:` loop (caller.py lines 57-80).  The two
trailing `if` statements of the body have mutually exclusive guards
(`mv[0] > size_to_explore` vs `mv[0] < size_to_explore`), so at most one
candidate is pushed per iteration. -/
def grcLoop (s : ℤ → ℤ) : ℕ → List (ℤ × ℤ) → List (ℤ × ℤ) → Option (List (ℤ × ℤ))
  | 0, _, _ => none
  | _ + 1, [], memo => some memo
  | fuel + 1, (k, _d) :: rest, memo =>
      let ms := evalWindow s k memo
      match pythonMaxBySnd ms.2 with
      | none => none
      | some mv =>
          let stack' :=
            if mv.1 > k ∧ memoLookup ms.1 (mv.1 + 1) = none then (mv.1 + 1, 1) :: rest
            else if mv.1 < k ∧ memoLookup ms.1 (mv.1 - 1) = none then (mv.1 - 1, -1) :: rest
            else rest
          grcLoop s fuel stack' ms.1

/-- `motif * i` (Python string repetition). -/
def repeatMotif (motif : List Char) : ℕ → List Char
  | 0 => []
  | n + 1 => motif ++ repeatMotif motif n

/-- The score of candidate copy number `i` (caller.py lines 66-72):
`db_seq = flank_left_seq + tr_seq + flank_right_seq` (line 55),
`mm = motif * i`, and the score is the max of the two semi-global
variants, both with gap open = gap extend = `indel_penalty`. -/
def grcScore (tr_seq flank_left_seq flank_right_seq motif : List Char) (i : ℤ) : ℤ :=
  let db_seq := flank_left_seq ++ tr_seq ++ flank_right_seq
  let mm := repeatMotif motif i.toNat
  max (sgScoreFwd indel_penalty (flank_left_seq ++ mm) db_seq)
      (sgScoreRev indel_penalty (mm ++ flank_right_seq) db_seq)

/-- The initial `to_explore = [(start_count - 1, -1), (start_count + 1, 1), (start_count, 0)]`
(caller.py line 49); Python pops from the end, so the embedded stack
lists `(start_count, 0)` first. -/
def grcInit (start_count : ℤ) : List (ℤ × ℤ) :=
  [(start_count, 0), (start_count + 1, 1), (start_count - 1, -1)]

/-- The final memo table of `get_repeat_count` after the exploration
loop has drained (`none` if the fuel ran out). -/
def grcMemo (fuel : ℕ) (start_count : ℤ) (tr_seq flank_left_seq flank_right_seq motif : List Char) :
    Option (List (ℤ × ℤ)) :=
  grcLoop (grcScore tr_seq flank_left_seq flank_right_seq motif) fuel (grcInit start_count) []

/-- `get_repeat_count` (caller.py lines 41-84): run the exploration loop
and return `max(sizes_and_scores.items(), key=lambda x: x[1])`
(line 83). -/
def get_repeat_count (fuel : ℕ) (start_count : ℤ)
    (tr_seq flank_left_seq flank_right_seq motif : List Char) : Option (ℤ × ℤ) :=
  (grcMemo fuel start_count tr_seq flank_left_seq flank_right_seq motif).bind pythonMaxBySnd

/-! ## Python helpers -/

/-- Python `xs[a:b]` for non-negative bounds (the only form the caller
uses): clamp to the list, empty when `a ≥ b`. -/
def pySlice (xs : List α) (a b : ℤ) : List α := (xs.take b.toNat).drop a.toNat

/-- Python `xs[:n]` for `n ≥ 0`. -/
def pyTakeFirst (n : ℤ) (xs : List α) : List α := xs.take n.toNat

/-- Python `xs[-n:]` for `n > 0`: the last `min n (length xs)` elements. -/
def pyTakeLast (n : ℤ) (xs : List α) : List α := xs.drop (xs.length - n.toNat)

/-- Python `round(a / b)` for non-negative integers `a`, `b` (`b ≠ 0`):
the true division produces the exact rational `a / b`, and `round` takes
it to the nearest integer, breaking ties half-to-even.  With `q`, `r`
the Euclidean quotient and remainder, the fractional part `r / b`
compares to one half as `2 * r` compares to `b`. -/
def pyRoundDiv (a b : ℕ) : ℤ :=
  let q := a / b
  let r := a % b
  if 2 * r < b then q
  else if b < 2 * r then q + 1
  else if q % 2 = 0 then q else q + 1

/-- Python `dict[k] = v` on an insertion-ordered dict: overwrite in place
if the key exists, else append. -/
def dictInsert (m : List (String × α)) (k : String) (v : α) : List (String × α) :=
  if m.any (fun p => p.1 = k) then m.map (fun p => if p.1 = k then (k, v) else p)
  else m ++ [(k, v)]

/-! ## Per-read extraction (caller.py lines 138-201) -/

/-- The four boundary indices tracked while walking a read's aligned
pairs (caller.py lines 139-142), all initialised to `-1`. -/
structure FlankIdx where
  left_flank_start_idx : ℤ
  left_flank_end_idx : ℤ
  right_flank_start_idx : ℤ
  right_flank_end_idx : ℤ
deriving Repr, DecidableEq

/-- All four indices start at `-1`. -/
def initFlankIdx : FlankIdx := ⟨-1, -1, -1, -1⟩

/-- The `for pair in segment.get_aligned_pairs(matches_only=True)` walk
(caller.py lines 144-158): each matching pair overwrites its index, and
a pair at or beyond `right_flank_coord` records `right_flank_end_idx`
and breaks.  Pairs with `right_coord ≤ r < right_flank_coord` match no
branch of the `if`/`elif` chain and are passed over. -/
def walkPairs (lfc lc rc rfc : ℤ) : List (ℤ × ℤ) → FlankIdx → FlankIdx
  | [], acc => acc
  | (q, r) :: rest, acc =>
      if r ≤ lfc then walkPairs lfc lc rc rfc rest { acc with left_flank_start_idx := q }
      else if r < lc then walkPairs lfc lc rc rfc rest { acc with left_flank_end_idx := q + 1 }
      else if r < rc then walkPairs lfc lc rc rfc rest { acc with right_flank_start_idx := q }
      else if rfc ≤ r then { acc with right_flank_end_idx := q }
      else walkPairs lfc lc rc rfc rest acc

/-- The fields of a pysam aligned segment that `call_locus` reads. -/
structure Segment where
  query_name : String
  query_sequence : List Char
  query_alignment_length : ℤ
  aligned_pairs : List (ℤ × ℤ)

/-- Exceptions the embedded `call_locus` can leave unhandled.
`estimatorOutOfFuel` is an artefact of the embedding's fuelled
exploration loop (the Python loop carries no fuel); it also covers the
`ValueError` Python's `max` would raise on an empty `szs`. -/
inductive PyExn where
  | zeroDivisionError
  | estimatorOutOfFuel
deriving Repr, DecidableEq

/-- The weight expression of caller.py line 201,
`1 / ((read_len - tr_flank_len + 1) / (read_len + tr_flank_len - 2))`,
evaluated like Python: `none` when either division divides by zero
(`ZeroDivisionError`), i.e. when `read_len + tr_flank_len - 2 = 0` or
when the inner quotient is `0.0` because `read_len - tr_flank_len + 1 = 0`. -/
def readWeight (read_len tr_flank_len : ℤ) : Option ℚ :=
  if read_len + tr_flank_len - 2 = 0 then none
  else if read_len - tr_flank_len + 1 = 0 then none
  else some (1 / (((read_len : ℚ) - (tr_flank_len : ℚ) + 1) / ((read_len : ℚ) + (tr_flank_len : ℚ) - 2)))

/-- The body of the read loop (caller.py lines 138-201) for one segment:
`ok none` means the read is skipped (some boundary index still `-1`),
`ok (some (count, weight))` is the pair recorded for the read. -/
def readStep (fuel : ℕ) (flank_size : ℤ) (motif : List Char) (lfc lc rc rfc : ℤ)
    (seg : Segment) : Except PyExn (Option (ℤ × ℚ)) :=
  let w := walkPairs lfc lc rc rfc seg.aligned_pairs initFlankIdx
  if w.left_flank_start_idx = -1 ∨ w.left_flank_end_idx = -1 ∨
      w.right_flank_start_idx = -1 ∨ w.right_flank_end_idx = -1 then
    .ok none
  else
    let tr_read_seq := pySlice seg.query_sequence w.left_flank_end_idx w.right_flank_start_idx
    let flank_left_seq :=
      pyTakeFirst (flank_size + 10) (pySlice seg.query_sequence w.left_flank_start_idx w.left_flank_end_idx)
    let flank_right_seq :=
      pyTakeLast (flank_size + 10) (pySlice seg.query_sequence w.right_flank_start_idx w.right_flank_end_idx)
    let read_len := seg.query_alignment_length
    let tr_len : ℤ := tr_read_seq.length
    if motif.length = 0 then .error .zeroDivisionError
    else
      match get_repeat_count fuel (pyRoundDiv tr_read_seq.length motif.length)
          tr_read_seq flank_left_seq flank_right_seq motif with
      | none => .error .estimatorOutOfFuel
      | some read_rc =>
          let tr_flank_len : ℤ := tr_len + flank_left_seq.length + flank_right_seq.length
          match readWeight read_len tr_flank_len with
          | none => .error .zeroDivisionError
          | some wgt => .ok (some (read_rc.1, wgt))

/-- The read loop over all fetched segments, accumulating
`read_size_dict` and `read_weight_dict` in insertion order. -/
def readLoop (fuel : ℕ) (flank_size : ℤ) (motif : List Char) (lfc lc rc rfc : ℤ) :
    List Segment → List (String × ℤ) → List (String × ℚ) →
    Except PyExn (List (String × ℤ) × List (String × ℚ))
  | [], sizes, weights => .ok (sizes, weights)
  | seg :: rest, sizes, weights =>
      match readStep fuel flank_size motif lfc lc rc rfc seg with
      | .error e => .error e
      | .ok none => readLoop fuel flank_size motif lfc lc rc rfc rest sizes weights
      | .ok (some cw) =>
          readLoop fuel flank_size motif lfc lc rc rfc rest
            (dictInsert sizes seg.query_name cw.1) (dictInsert weights seg.query_name cw.2)

/-! ## Ploidy resolution and reference access -/

/-- Modelled from the spec: `get_n_alleles` lives in
`stronger/call/allele.py`, which is not among the provided sources; §4.4
(Ploidy Resolver): mitochondrial names → 1, X/Y names → the count of
that letter in the sex configuration, `NONE` → skip (`none`), autosome →
the default (2 at the call site). -/
def get_n_alleles (default_ploidy : ℕ) (sex_chroms : Option String) (contig : String) :
    Option ℕ :=
  if contig = "chrM" ∨ contig = "M" then some 1
  else if contig = "chrX" ∨ contig = "X" then
    match sex_chroms with
    | none => none
    | some sc => some (sc.toList.count 'X')
  else if contig = "chrY" ∨ contig = "Y" then
    match sex_chroms with
    | none => none
    | some sc => some (sc.toList.count 'Y')
  else some default_ploidy

/-- Kinds of exception a reference `fetch` can raise that `call_locus`
catches (caller.py lines 114-121): `IndexError` for out-of-range
coordinates, `ValueError` for an invalid region. -/
inductive FetchErr where
  | indexError
  | valueError
deriving Repr, DecidableEq

/-- Modelled from the spec: pysam's `FastaFile.fetch(contig, start, end)`
(§6: "queried by `fetch(contig, start, end)` returning an uppercase
ACGTN string") on a known contig with in-range coordinates returns the
reference bases over the half-open interval `[start, end)`. -/
def fastaFetch (contigSeq : List Char) (s e : ℤ) : List Char := pySlice contigSeq s e

/-- `left_flank_coord = left_coord - flank_size - 1` (caller.py line 102). -/
def left_flank_coord (left_coord flank_size : ℤ) : ℤ := left_coord - flank_size - 1

/-- `right_flank_coord = right_coord + flank_size` (caller.py line 103). -/
def right_flank_coord (right_coord flank_size : ℤ) : ℤ := right_coord + flank_size

/-! ## `call_locus` (caller.py lines 87-237) -/

/-- The locus tuple `t` parsed from a BED row: `t[0]`, `int(t[1])`,
`int(t[2])`, `t[-1]`. -/
structure LocusRow where
  contig : String
  left_coord : ℤ
  right_coord : ℤ
  motif : List Char

/-- The result dict assembled at caller.py lines 225-237. -/
structure LocusResult where
  locus_index : ℕ
  contig : String
  start : ℤ
  «end» : ℤ
  motif : List Char
  ref_cn : ℤ
  call : Option (List ℚ)
  call_95_cis : Option (List (ℚ × ℚ))
  call_99_cis : Option (List (ℚ × ℚ))
  read_cns : List (String × ℤ)
  read_weights : List (String × ℚ)

/-- The shape of `call_alleles` (from `stronger/call/allele.py`, not
among the provided sources): it receives the read counts, the
normalised weights and the calling parameters, and produces the three
possibly-absent components `call[0]`, `call[1]`, `call[2]` that
`call_locus` stores (after `apply_or_none(list, ·)`).  `call_locus` is
embedded parametrically in it, since no claim under study depends on
its internals. -/
def CallAllelesFn : Type :=
  List ℤ → List ℚ → ℕ → ℕ → ℕ → ℕ →
    Option (List ℚ) × Option (List (ℚ × ℚ)) × Option (List (ℚ × ℚ))

/-- Python `str.replace`, fuelled so that it evaluates by structural
recursion (each step consumes at least one character, so fuel equal to
the string length suffices). -/
def strReplaceAux (pat rep : List Char) : ℕ → List Char → List Char
  | 0, _ => []
  | fuel + 1, l =>
      match l with
      | [] => []
      | c :: cs =>
          if 1 ≤ pat.length ∧ pat.isPrefixOf (c :: cs) then
            rep ++ strReplaceAux pat rep fuel (cs.drop (pat.length - 1))
          else c :: strReplaceAux pat rep fuel cs

/-- Python `str.replace`: replace non-overlapping occurrences of `pat`
left to right (on character lists; only called with the non-empty
pattern `"chr"`). -/
def strReplace (pat rep l : List Char) : List Char := strReplaceAux pat rep l.length l

/-- `("chr" if has_chr else "") + contig.replace("chr", "")`
(caller.py lines 93-94). -/
def fixContig (has_chr : Bool) (contig : String) : String :=
  (if has_chr then "chr" else "") ++ String.mk (strReplace "chr".toList [] contig.toList)

/-- The `try`/`except` fetch block of caller.py lines 105-121: the three
fetched sequences (left flank over `[left_flank_coord, left_coord)`,
right flank over `[right_coord - 1, right_flank_coord)`, repeat region
over `[left_coord, right_coord - 1)`), each defaulting to the empty
string once an exception has been raised, together with the `raised`
flag. -/
def refFetches (ref : String → ℤ → ℤ → Except FetchErr (List Char)) (ref_contig : String)
    (lfc lc rc rfc : ℤ) : List Char × List Char × List Char × Bool :=
  match ref ref_contig lfc lc with
  | .error _ => ([], [], [], true)
  | .ok lfs =>
      match ref ref_contig (rc - 1) rfc with
      | .error _ => (lfs, [], [], true)
      | .ok rfs =>
          match ref ref_contig lc (rc - 1) with
          | .error _ => (lfs, rfs, [], true)
          | .ok rs => (lfs, rfs, rs, false)

/-- `call_locus` (caller.py lines 87-237).  The reference and the
alignment file are oracles (`ref` may raise; `bf` yields the segments
overlapping the queried window).  Returns `.ok none` where the Python
function returns `None`, `.ok (some res)` for a produced result dict,
and `.error e` where the Python function would let an exception escape.
The two source returns at lines 126 and 129 (flank too short / fetch
raised) are merged into the same `.ok none` outcomes they produce. -/
def call_locus (fuel : ℕ) (call_alleles : CallAllelesFn) (t_idx : ℕ) (t : LocusRow)
    (bf : String → ℤ → ℤ → List Segment) (ref : String → ℤ → ℤ → Except FetchErr (List Char))
    (min_reads min_allele_reads num_bootstrap : ℕ) (flank_size : ℤ)
    (sex_chroms : Option String) (read_file_has_chr ref_file_has_chr : Bool) :
    Except PyExn (Option LocusResult) :=
  let contig := t.contig
  let read_contig := fixContig read_file_has_chr contig
  let ref_contig := fixContig ref_file_has_chr contig
  let motif := t.motif
  let motif_size := motif.length
  let lc := t.left_coord
  let rc := t.right_coord
  let lfc := left_flank_coord lc flank_size
  let rfc := right_flank_coord rc flank_size
  let fetched := refFetches ref ref_contig lfc lc rc rfc
  let ref_left_flank_seq := fetched.1
  let ref_right_flank_seq := fetched.2.1
  let ref_seq := fetched.2.2.1
  let raised := fetched.2.2.2
  if (ref_left_flank_seq.length : ℤ) < flank_size ∨
      (ref_right_flank_seq.length : ℤ) < flank_size then .ok none
  else if raised then .ok none
  else if motif_size = 0 then .error .zeroDivisionError
  else
    let ref_size := pyRoundDiv ref_seq.length motif_size
    match get_repeat_count fuel ref_size ref_seq ref_left_flank_seq ref_right_flank_seq motif with
    | none => .error .estimatorOutOfFuel
    | some rc_pair =>
        match readLoop fuel flank_size motif lfc lc rc rfc (bf read_contig lfc rfc) [] [] with
        | .error e => .error e
        | .ok dicts =>
            match get_n_alleles 2 sex_chroms contig with
            | none => .ok none
            | some n_alleles =>
                let read_size_dict := dicts.1
                let read_weight_dict := dicts.2
                let raw_weights := read_weight_dict.map (fun p => p.2)
                let wsum := raw_weights.foldl (· + ·) 0
                let read_weights := raw_weights.map (fun w => w / wsum)
                let c := call_alleles (read_size_dict.map (fun p => p.2)) read_weights
                  num_bootstrap min_reads min_allele_reads n_alleles
                .ok (some
                  { locus_index := t_idx
                    contig := contig
                    start := lc
                    «end» := rc
                    motif := motif
                    ref_cn := rc_pair.1
                    call := c.1
                    call_95_cis := c.2.1
                    call_99_cis := c.2.2
                    read_cns := read_size_dict
                    read_weights := read_weight_dict })

/-- The per-worker accumulation of caller.py lines 289-290: only
non-`None` `call_locus` results are appended to the worker's result
list. -/
def locus_worker_results (rs : List (Option LocusResult)) : List LocusResult :=
  rs.filterMap id

/-! ## The walk characterised by last matching pairs

`walkPairs` overwrites each boundary index every time its branch fires,
so the final value of each index comes from the *last* pair (among the
pairs actually processed before the `break`) whose reference coordinate
selects that branch. -/

/-- The pairs the walk actually processes: everything up to and
including the first pair that triggers the `break` branch. -/
def walkProcessed (lfc lc rc rfc : ℤ) : List (ℤ × ℤ) → List (ℤ × ℤ)
  | [] => []
  | p :: rest =>
      if ¬ p.2 ≤ lfc ∧ ¬ p.2 < lc ∧ ¬ p.2 < rc ∧ rfc ≤ p.2 then [p]
      else p :: walkProcessed lfc lc rc rfc rest

/-- Branch guard: pair updates `left_flank_start_idx`. -/
def branchLS (lfc : ℤ) (p : ℤ × ℤ) : Bool := p.2 ≤ lfc

/-- Branch guard: pair updates `left_flank_end_idx`. -/
def branchLE (lfc lc : ℤ) (p : ℤ × ℤ) : Bool := !(p.2 ≤ lfc) && p.2 < lc

/-- Branch guard: pair updates `right_flank_start_idx`. -/
def branchRS (lfc lc rc : ℤ) (p : ℤ × ℤ) : Bool := !(p.2 ≤ lfc) && !(p.2 < lc) && p.2 < rc

/-- Branch guard: pair updates `right_flank_end_idx` and breaks. -/
def branchRE (lfc lc rc rfc : ℤ) (p : ℤ × ℤ) : Bool :=
  !(p.2 ≤ lfc) && !(p.2 < lc) && !(p.2 < rc) && rfc ≤ p.2

/-- `q`-projection of the last pair of a list, with a default. -/
def lastQ (l : List (ℤ × ℤ)) (dflt : ℤ) (f : ℤ → ℤ) : ℤ :=
  match l.getLast? with
  | none => dflt
  | some p => f p.1

theorem lastQ_cons (x : ℤ × ℤ) (l : List (ℤ × ℤ)) (dflt : ℤ) (f : ℤ → ℤ) :
    lastQ (x :: l) dflt f = lastQ l (f x.1) f := by
  cases l with
  | nil => rfl
  | cons y ys =>
      show (match (x :: y :: ys).getLast? with
        | none => dflt
        | some p => f p.1) = lastQ (y :: ys) (f x.1) f
      rw [List.getLast?_cons_cons]
      cases h : (y :: ys).getLast? with
      | none => simp at h
      | some p => simp [lastQ, h]

/-- Generalised walk characterisation: every boundary index ends up as
the image of the last processed pair selecting its branch (or keeps its
accumulator value if no such pair exists). -/
theorem walkPairs_eq (lfc lc rc rfc : ℤ) (pairs : List (ℤ × ℤ)) (acc : FlankIdx) :
    walkPairs lfc lc rc rfc pairs acc =
      { left_flank_start_idx :=
          lastQ ((walkProcessed lfc lc rc rfc pairs).filter (branchLS lfc))
            acc.left_flank_start_idx id
        left_flank_end_idx :=
          lastQ ((walkProcessed lfc lc rc rfc pairs).filter (branchLE lfc lc))
            acc.left_flank_end_idx (· + 1)
        right_flank_start_idx :=
          lastQ ((walkProcessed lfc lc rc rfc pairs).filter (branchRS lfc lc rc))
            acc.right_flank_start_idx id
        right_flank_end_idx :=
          lastQ ((walkProcessed lfc lc rc rfc pairs).filter (branchRE lfc lc rc rfc))
            acc.right_flank_end_idx id } := by
  induction pairs generalizing acc with
  | nil => rfl
  | cons p rest ih =>
      obtain ⟨q, r⟩ := p
      by_cases h1 : r ≤ lfc
      · have e1 : branchLS lfc (q, r) = true := by simp [branchLS, h1]
        have e2 : branchLE lfc lc (q, r) = false := by simp [branchLE, h1]
        have e3 : branchRS lfc lc rc (q, r) = false := by simp [branchRS, h1]
        have e4 : branchRE lfc lc rc rfc (q, r) = false := by simp [branchRE, h1]
        have hw : walkPairs lfc lc rc rfc ((q, r) :: rest) acc =
            walkPairs lfc lc rc rfc rest { acc with left_flank_start_idx := q } := by
          simp [walkPairs, h1]
        have hp : walkProcessed lfc lc rc rfc ((q, r) :: rest) =
            (q, r) :: walkProcessed lfc lc rc rfc rest := by
          simp [walkProcessed, h1]
        rw [hw, ih, hp]
        simp only [List.filter_cons, e1, e2, e3, e4, if_true, if_false, lastQ_cons]
        rfl
      · by_cases h2 : r < lc
        · have e1 : branchLS lfc (q, r) = false := by simp [branchLS, h1]
          have e2 : branchLE lfc lc (q, r) = true := by simp [branchLE, h1, h2]
          have e3 : branchRS lfc lc rc (q, r) = false := by simp [branchRS, h2]
          have e4 : branchRE lfc lc rc rfc (q, r) = false := by simp [branchRE, h2]
          have hw : walkPairs lfc lc rc rfc ((q, r) :: rest) acc =
              walkPairs lfc lc rc rfc rest { acc with left_flank_end_idx := q + 1 } := by
            simp [walkPairs, h1, h2]
          have hp : walkProcessed lfc lc rc rfc ((q, r) :: rest) =
              (q, r) :: walkProcessed lfc lc rc rfc rest := by
            simp [walkProcessed, h2]
          rw [hw, ih, hp]
          simp only [List.filter_cons, e1, e2, e3, e4, if_true, if_false, lastQ_cons]
          rfl
        · by_cases h3 : r < rc
          · have e1 : branchLS lfc (q, r) = false := by simp [branchLS, h1]
            have e2 : branchLE lfc lc (q, r) = false := by simp [branchLE, h2]
            have e3 : branchRS lfc lc rc (q, r) = true := by simp [branchRS, h1, h2, h3]
            have e4 : branchRE lfc lc rc rfc (q, r) = false := by simp [branchRE, h3]
            have hw : walkPairs lfc lc rc rfc ((q, r) :: rest) acc =
                walkPairs lfc lc rc rfc rest { acc with right_flank_start_idx := q } := by
              simp [walkPairs, h1, h2, h3]
            have hp : walkProcessed lfc lc rc rfc ((q, r) :: rest) =
                (q, r) :: walkProcessed lfc lc rc rfc rest := by
              simp [walkProcessed, h3]
            rw [hw, ih, hp]
            simp only [List.filter_cons, e1, e2, e3, e4, if_true, if_false, lastQ_cons]
            rfl
          · by_cases h4 : rfc ≤ r
            · have e1 : branchLS lfc (q, r) = false := by simp [branchLS, h1]
              have e2 : branchLE lfc lc (q, r) = false := by simp [branchLE, h2]
              have e3 : branchRS lfc lc rc (q, r) = false := by simp [branchRS, h3]
              have e4 : branchRE lfc lc rc rfc (q, r) = true := by
                simp [branchRE, h1, h2, h3, h4]
              have hw : walkPairs lfc lc rc rfc ((q, r) :: rest) acc =
                  { acc with right_flank_end_idx := q } := by
                simp [walkPairs, h1, h2, h3, h4]
              have hp : walkProcessed lfc lc rc rfc ((q, r) :: rest) = [(q, r)] := by
                simp [walkProcessed, h1, h2, h3, h4]
              rw [hw, hp]
              simp only [List.filter_cons, List.filter_nil, e1, e2, e3, e4, if_true, if_false]
              rfl
            · have e1 : branchLS lfc (q, r) = false := by simp [branchLS, h1]
              have e2 : branchLE lfc lc (q, r) = false := by simp [branchLE, h2]
              have e3 : branchRS lfc lc rc (q, r) = false := by simp [branchRS, h3]
              have e4 : branchRE lfc lc rc rfc (q, r) = false := by simp [branchRE, h4]
              have hw : walkPairs lfc lc rc rfc ((q, r) :: rest) acc =
                  walkPairs lfc lc rc rfc rest acc := by
                simp [walkPairs, h1, h2, h3, h4]
              have hp : walkProcessed lfc lc rc rfc ((q, r) :: rest) =
                  (q, r) :: walkProcessed lfc lc rc rfc rest := by
                simp [walkProcessed, h4]
              rw [hw, ih, hp]
              simp [List.filter_cons, e1, e2, e3, e4]

/-! ## Python `max` over the memo: first maximum in insertion order -/

/-- `m` is the first element of `l` attaining the maximal second
component: everything before it is strictly smaller, everything after it
no larger. -/
def isFirstMaxBySnd (m : ℤ × ℤ) (l : List (ℤ × ℤ)) : Prop :=
  ∃ l₁ l₂, l = l₁ ++ m :: l₂ ∧ (∀ x ∈ l₁, x.2 < m.2) ∧ ∀ x ∈ l₂, x.2 ≤ m.2

theorem foldl_pyMax_spec (xs : List (ℤ × ℤ)) (a m : ℤ × ℤ)
    (hm : xs.foldl (fun a b => if b.2 > a.2 then b else a) a = m) :
    (m = a ∧ ∀ x ∈ xs, x.2 ≤ a.2) ∨
    (∃ l₁ l₂, xs = l₁ ++ m :: l₂ ∧ a.2 < m.2 ∧ (∀ x ∈ l₁, x.2 < m.2) ∧
      ∀ x ∈ l₂, x.2 ≤ m.2) := by
  induction xs generalizing a with
  | nil => exact Or.inl ⟨hm.symm, by simp⟩
  | cons x xs ih =>
      simp only [List.foldl_cons] at hm
      by_cases hx : x.2 > a.2
      · rw [if_pos hx] at hm
        rcases ih x hm with ⟨hma, hall⟩ | ⟨l₁, l₂, hs, hlt, hb, haf⟩
        · refine Or.inr ⟨[], xs, by simp [hma], ?_, by simp, ?_⟩
          · rw [hma]; exact hx
          · intro y hy; rw [hma]; exact hall y hy
        · refine Or.inr ⟨x :: l₁, l₂, by simp [hs], lt_trans hx hlt, ?_, haf⟩
          intro y hy
          rcases List.mem_cons.mp hy with h | h
          · rw [h]; exact hlt
          · exact hb y h
      · rw [if_neg hx] at hm
        rcases ih a hm with ⟨hma, hall⟩ | ⟨l₁, l₂, hs, hlt, hb, haf⟩
        · refine Or.inl ⟨hma, ?_⟩
          intro y hy
          rcases List.mem_cons.mp hy with h | h
          · rw [h]; exact not_lt.mp hx
          · exact hall y h
        · refine Or.inr ⟨x :: l₁, l₂, by simp [hs], hlt, ?_, haf⟩
          intro y hy
          rcases List.mem_cons.mp hy with h | h
          · rw [h]; exact lt_of_le_of_lt (not_lt.mp hx) hlt
          · exact hb y h

/-- If Python's keyed `max` returns `m` on `l`, then `m` is the first
maximal-score element of `l` in order. -/
theorem pythonMaxBySnd_isFirstMax (l : List (ℤ × ℤ)) (m : ℤ × ℤ)
    (h : pythonMaxBySnd l = some m) : isFirstMaxBySnd m l := by
  cases l with
  | nil => simp [pythonMaxBySnd] at h
  | cons x xs =>
      have hm : xs.foldl (fun a b => if b.2 > a.2 then b else a) x = m := by
        simpa [pythonMaxBySnd] using h
      rcases foldl_pyMax_spec xs x m hm with ⟨hma, hall⟩ | ⟨l₁, l₂, hs, hlt, hb, haf⟩
      · exact ⟨[], xs, by simp [hma], by simp, fun y hy => hma ▸ hall y hy⟩
      · refine ⟨x :: l₁, l₂, by simp [hs], ?_, haf⟩
        intro y hy
        rcases List.mem_cons.mp hy with h | h
        · rw [h]; exact hlt
        · exact hb y h

/-! ## Slice lengths -/

theorem pySlice_length (xs : List α) (a b : ℤ) :
    (pySlice xs a b).length = min b.toNat xs.length - a.toNat := by
  simp [pySlice]

theorem pySlice_split (xs : List α) (a m b : ℤ) (ham : a ≤ m) (hmb : m ≤ b)
    (hb : b ≤ (xs.length : ℤ)) :
    pySlice xs a b = pySlice xs a m ++ pySlice xs m b := by
  unfold pySlice
  have h1 : List.take b.toNat xs =
      List.take m.toNat xs ++ (List.take b.toNat xs).drop m.toNat := by
    conv_lhs => rw [← List.take_append_drop m.toNat (List.take b.toNat xs)]
    rw [List.take_take]
    congr 2
    omega
  conv_lhs => rw [h1]
  rw [List.drop_append_eq_append_drop]
  have h2 : a.toNat - (List.take m.toNat xs).length = 0 := by
    simp only [List.length_take]
    omega
  rw [h2, List.drop_zero]

/-! ## `call_locus` control-flow helpers -/

theorem call_locus_raised (fuel : ℕ) (cfn : CallAllelesFn) (t_idx : ℕ) (t : LocusRow)
    (bf : String → ℤ → ℤ → List Segment) (ref : String → ℤ → ℤ → Except FetchErr (List Char))
    (mr mar nb : ℕ) (F : ℤ) (sx : Option String) (rhc fhc : Bool)
    (h : (refFetches ref (fixContig fhc t.contig) (left_flank_coord t.left_coord F)
        t.left_coord t.right_coord (right_flank_coord t.right_coord F)).2.2.2 = true) :
    call_locus fuel cfn t_idx t bf ref mr mar nb F sx rhc fhc = .ok none := by
  unfold call_locus
  rcases hfe : refFetches ref (fixContig fhc t.contig) (left_flank_coord t.left_coord F)
      t.left_coord t.right_coord (right_flank_coord t.right_coord F) with ⟨lfs, rfs, rs, raised⟩
  rw [hfe] at h
  simp only at h
  subst h
  simp only [hfe]
  split
  · rfl
  · rfl

theorem call_locus_flank_short (fuel : ℕ) (cfn : CallAllelesFn) (t_idx : ℕ) (t : LocusRow)
    (bf : String → ℤ → ℤ → List Segment) (ref : String → ℤ → ℤ → Except FetchErr (List Char))
    (mr mar nb : ℕ) (F : ℤ) (sx : Option String) (rhc fhc : Bool)
    (h : (((refFetches ref (fixContig fhc t.contig) (left_flank_coord t.left_coord F)
          t.left_coord t.right_coord (right_flank_coord t.right_coord F)).1.length : ℤ) < F) ∨
        (((refFetches ref (fixContig fhc t.contig) (left_flank_coord t.left_coord F)
          t.left_coord t.right_coord (right_flank_coord t.right_coord F)).2.1.length : ℤ) < F)) :
    call_locus fuel cfn t_idx t bf ref mr mar nb F sx rhc fhc = .ok none := by
  unfold call_locus
  rcases hfe : refFetches ref (fixContig fhc t.contig) (left_flank_coord t.left_coord F)
      t.left_coord t.right_coord (right_flank_coord t.right_coord F) with ⟨lfs, rfs, rs, raised⟩
  rw [hfe] at h
  simp only [hfe]
  rw [if_pos]
  exact h

theorem call_locus_ploidy_skip (fuel : ℕ) (cfn : CallAllelesFn) (t_idx : ℕ) (t : LocusRow)
    (bf : String → ℤ → ℤ → List Segment) (ref : String → ℤ → ℤ → Except FetchErr (List Char))
    (mr mar nb : ℕ) (F : ℤ) (sx : Option String) (rhc fhc : Bool)
    (lfs rfs rs : List Char) (rcp : ℤ × ℤ)
    (hfe : refFetches ref (fixContig fhc t.contig) (left_flank_coord t.left_coord F)
        t.left_coord t.right_coord (right_flank_coord t.right_coord F) = (lfs, rfs, rs, false))
    (hl : F ≤ (lfs.length : ℤ)) (hr : F ≤ (rfs.length : ℤ)) (hmot : t.motif.length ≠ 0)
    (hgrc : get_repeat_count fuel (pyRoundDiv rs.length t.motif.length)
        rs lfs rfs t.motif = some rcp)
    (hbf : bf (fixContig rhc t.contig) (left_flank_coord t.left_coord F)
        (right_flank_coord t.right_coord F) = [])
    (hna : get_n_alleles 2 sx t.contig = none) :
    call_locus fuel cfn t_idx t bf ref mr mar nb F sx rhc fhc = .ok none := by
  unfold call_locus
  simp only [hfe]
  rw [if_neg (by push_neg; exact ⟨hl, hr⟩), if_neg (by simp),
    if_neg hmot, hgrc, hbf]
  simp only [readLoop, hna]

/-! ## Concrete oracles used by the claim instances -/

/-- A reference oracle returning an all-`A` sequence of the requested
length for every fetch. -/
def polyARef : String → ℤ → ℤ → Except FetchErr (List Char) :=
  fun _ s e => .ok (List.replicate (e - s).toNat 'A')

/-- A reference oracle whose fetches all raise `IndexError`. -/
def failingRef : String → ℤ → ℤ → Except FetchErr (List Char) :=
  fun _ _ _ => .error .indexError

/-- A reference oracle returning the empty sequence for every fetch
(e.g. a fetch clamped away to nothing). -/
def emptyRef : String → ℤ → ℤ → Except FetchErr (List Char) :=
  fun _ _ _ => .ok []

/-- An alignment-file oracle with no reads overlapping any window. -/
def noReads : String → ℤ → ℤ → List Segment := fun _ _ _ => []

/-- An allele caller producing absent calls; the claims under study do
not depend on the allele caller's output. -/
def absentCalls : CallAllelesFn := fun _ _ _ _ _ _ => (none, none, none)

/-! ## Claim C4: gap penalties -/

/-- Claim C4, counterexample: the claim says every alignment-score
computation uses gap open = gap extend = 7, but the constant the code
passes for both (caller.py lines 36, 69, 71) is `indel_penalty = 5`. -/
theorem C4_counterexample : indel_penalty = 5 ∧ indel_penalty ≠ 7 := by decide

/-- Claim C4, amended: every alignment-score computation performed by
the repeat-count estimator uses gap open and gap extend penalties both
equal to `indel_penalty = 5` (with match = +2, mismatch = −7), so each
inserted or deleted base costs 5 — as the concrete one-deletion
alignment of `ACG` against `ACTG` shows (three matches minus one
deleted base: `2*3 - 5 = 1`). -/
theorem C4_gap_penalty_is_five :
    match_score = 2 ∧ mismatch_penalty = 7 ∧ indel_penalty = 5 ∧
    (∀ tr fl fr motif : List Char, ∀ i : ℤ,
      grcScore tr fl fr motif i =
        max (sgScoreFwd 5 (fl ++ repeatMotif motif i.toNat) (fl ++ tr ++ fr))
            (sgScoreRev 5 (repeatMotif motif i.toNat ++ fr) (fl ++ tr ++ fr))) ∧
    sgScoreFwd indel_penalty ['A', 'C', 'G'] ['A', 'C', 'T', 'G'] = 2 * 3 - indel_penalty := by
  refine ⟨rfl, rfl, rfl, fun tr fl fr motif i => rfl, by decide⟩

/-! ## Claim C5: the length-bias weight -/

/-- Claim C5: the claim says the weight computation substitutes `w = 1`
whenever a denominator is non-positive and never raises a division by
zero; the code (caller.py line 201) has no such guard, and raises
`ZeroDivisionError` (embedded as `none`) e.g. at
`read_len = 5, tr_flank_len = 6` (inner quotient `0.0`) and at
`read_len = 1, tr_flank_len = 1` (zero denominator), while computing
the claimed formula only when both divisions are defined. -/
theorem C5_weight_division_crash :
    readWeight 5 6 = none ∧ readWeight 1 1 = none ∧
    readWeight 3 1 = some (2 / 3) := by
  refine ⟨by norm_num [readWeight], by norm_num [readWeight], by norm_num [readWeight]⟩

/-! ## Claim C8: empty motif -/

/-- Claim C8: the claim says an empty motif is rejected with an
`InvalidInput` error and the locus skipped; the code performs no motif
validation, and `round(len(ref_seq) / motif_size)` (caller.py line 132)
raises an unhandled `ZeroDivisionError` when the motif is the empty
string, crashing the run instead of skipping the locus. -/
theorem C8_empty_motif_crash :
    call_locus 8 absentCalls 1 ⟨"chr1", 1, 2, []⟩ noReads polyARef
      4 2 100 0 none true true = .error .zeroDivisionError := rfl

/-! ## Claim C2: reference flank windows -/

/-- Claim C2, counterexample: for the in-contig locus `[8, 10)` with
flank size `F = 3` on a 20-base contig, the fetched left flank has
length 4 = `F + 1`, not `F`, and the right flank is fetched over
`[right_coord - 1, right_coord + F)` — one base earlier than the
claim's `[right_coord, right_coord + F)`. -/
theorem C2_counterexample :
    (fastaFetch ("ACGTACGTACGTACGTACGT".toList) (left_flank_coord 8 3) 8).length ≠ 3 ∧
    fastaFetch ("ACGTACGTACGTACGTACGT".toList) (10 - 1) (right_flank_coord 10 3) ≠
      fastaFetch ("ACGTACGTACGTACGTACGT".toList) 10 (10 + 3) := by decide

/-- Claim C2, amended: for every locus whose flanked window lies inside
the contig, the fetched reference flanks each have length exactly
`F + 1` (the left flank spans `[left_coord - F - 1, left_coord)`, the
right flank spans `[right_coord - 1, right_coord + F)`, i.e. the
claim's interval `[right_coord, right_coord + F)` preceded by the base
at `right_coord - 1`); a locus whose fetched flanks are shorter than
`F` is skipped (`call_locus` returns `None`). -/
theorem C2_flank_window (seq : List Char) (lc rc F : ℤ)
    (hF : 0 ≤ F) (h1 : 0 ≤ left_flank_coord lc F) (h2 : lc ≤ (seq.length : ℤ))
    (h3 : 1 ≤ rc) (h4 : right_flank_coord rc F ≤ (seq.length : ℤ)) :
    (fastaFetch seq (left_flank_coord lc F) lc).length = (F + 1).toNat ∧
    (fastaFetch seq (rc - 1) (right_flank_coord rc F)).length = (F + 1).toNat ∧
    fastaFetch seq (rc - 1) (right_flank_coord rc F) =
      fastaFetch seq (rc - 1) rc ++ fastaFetch seq rc (rc + F) ∧
    (∀ fuel cfn t_idx t bf ref mr mar nb sx rhc fhc,
      ((((refFetches ref (fixContig fhc (LocusRow.contig t))
            (left_flank_coord (LocusRow.left_coord t) F) (LocusRow.left_coord t)
            (LocusRow.right_coord t)
            (right_flank_coord (LocusRow.right_coord t) F)).1.length : ℤ) < F) ∨
        (((refFetches ref (fixContig fhc (LocusRow.contig t))
            (left_flank_coord (LocusRow.left_coord t) F) (LocusRow.left_coord t)
            (LocusRow.right_coord t)
            (right_flank_coord (LocusRow.right_coord t) F)).2.1.length : ℤ) < F) →
      call_locus fuel cfn t_idx t bf ref mr mar nb F sx rhc fhc = .ok none)) := by
  refine ⟨?_, ?_, ?_, ?_⟩
  · rw [fastaFetch, pySlice_length]
    simp only [left_flank_coord] at h1 ⊢
    omega
  · rw [fastaFetch, pySlice_length]
    simp only [right_flank_coord] at h4 ⊢
    omega
  · have := pySlice_split seq (rc - 1) rc (rc + F) (by omega) (by omega)
      (by simpa [right_flank_coord] using h4)
    simpa [fastaFetch, right_flank_coord] using this
  · intro fuel cfn t_idx t bf ref mr mar nb sx rhc fhc h
    exact call_locus_flank_short fuel cfn t_idx t bf ref mr mar nb F sx rhc fhc h

/-- Witness for C2 at the concrete locus of the counterexample. -/
theorem C2_flank_window_witness :
    ((0 : ℤ) ≤ 3 ∧ (0 : ℤ) ≤ left_flank_coord 8 3 ∧
      (8 : ℤ) ≤ (("ACGTACGTACGTACGTACGT".toList).length : ℤ) ∧ (1 : ℤ) ≤ 10 ∧
      right_flank_coord 10 3 ≤ (("ACGTACGTACGTACGTACGT".toList).length : ℤ)) ∧
    (fastaFetch ("ACGTACGTACGTACGTACGT".toList) (left_flank_coord 8 3) 8).length =
      ((3 : ℤ) + 1).toNat :=
  ⟨⟨by decide, by decide, by decide, by decide, by decide⟩,
    (C2_flank_window ("ACGTACGTACGTACGTACGT".toList) 8 10 3 (by decide) (by decide)
      (by decide) (by decide) (by decide)).1⟩

/-! ## Claim C3: first vs last matching pair -/

/-- The claim's rule, stated from its own words: `L_end := q_idx + 1`
for the FIRST pair with `left_flank_start < r_idx < left_coord`.  Kept
only to compare against the code's behaviour. -/
def specFirstLEnd (lfc lc : ℤ) (pairs : List (ℤ × ℤ)) : Option ℤ :=
  (pairs.find? (fun p => lfc < p.2 && p.2 < lc)).map (fun p => p.1 + 1)

/-- The claim's rule, stated from its own words: `R_start` is the
`q_idx` of the FIRST pair with `left_coord ≤ r_idx < right_coord`. -/
def specFirstRStart (lc rc : ℤ) (pairs : List (ℤ × ℤ)) : Option ℤ :=
  (pairs.find? (fun p => lc ≤ p.2 && p.2 < rc)).map (fun p => p.1)

/-- Claim C3, counterexample: with `left_flank_start = 0`,
`left_coord = 3`, `right_coord = 6`, `right_flank_coord = 9` and the
reference-ascending matched pairs
`(0,0), (1,1), (2,2), (3,3), (4,4), (5,5), (6,9)`, the code's walk ends
with `L_end = 3` and `R_start = 5` (the LAST qualifying pairs), while
the claim's FIRST-pair rule gives `L_end = 2` and `R_start = 3`. -/
theorem C3_counterexample :
    walkPairs 0 3 6 9 [(0, 0), (1, 1), (2, 2), (3, 3), (4, 4), (5, 5), (6, 9)] initFlankIdx =
      ⟨0, 3, 5, 6⟩ ∧
    specFirstLEnd 0 3 [(0, 0), (1, 1), (2, 2), (3, 3), (4, 4), (5, 5), (6, 9)] = some 2 ∧
    specFirstRStart 3 6 [(0, 0), (1, 1), (2, 2), (3, 3), (4, 4), (5, 5), (6, 9)] = some 3 ∧
    (3 : ℤ) ≠ 2 ∧ (5 : ℤ) ≠ 3 := by decide

/-- Claim C3, amended: walking the match-only aligned pairs sets each
boundary index from the LAST processed pair selecting its branch (the
assignments at caller.py lines 147-157 overwrite on every hit):
`L_end = q + 1` of the last pair with
`left_flank_start < r < left_coord`, `R_start = q` of the last pair
with `left_coord ≤ r < right_coord` (among the pairs walked before the
`break`), each defaulting to `-1`; the extracted `tr_read` is then
`query[L_end : R_start]` (caller.py line 172). -/
theorem C3_last_pair_extraction (lfc lc rc rfc : ℤ) (pairs : List (ℤ × ℤ)) :
    walkPairs lfc lc rc rfc pairs initFlankIdx =
      { left_flank_start_idx :=
          lastQ ((walkProcessed lfc lc rc rfc pairs).filter (branchLS lfc)) (-1) id
        left_flank_end_idx :=
          lastQ ((walkProcessed lfc lc rc rfc pairs).filter (branchLE lfc lc)) (-1) (· + 1)
        right_flank_start_idx :=
          lastQ ((walkProcessed lfc lc rc rfc pairs).filter (branchRS lfc lc rc)) (-1) id
        right_flank_end_idx :=
          lastQ ((walkProcessed lfc lc rc rfc pairs).filter (branchRE lfc lc rc rfc)) (-1) id } :=
  walkPairs_eq lfc lc rc rfc pairs initFlankIdx

/-! ## Claim C6: the returned candidate among ties -/

/-- Claim C6, counterexample: on `tr_seq = ""`, `flank_left = "A"`,
`flank_right = ""`, `motif = "A"`, `start_count = 2`, candidates 0 and
1 both attain the maximal memoised score 2, yet `get_repeat_count`
returns candidate 1 — not the smallest tied `k` — because Python's
`max` takes the first maximum in dict insertion order and 1 was
memoised before 0. -/
theorem C6_counterexample :
    get_repeat_count 32 2 [] ['A'] [] ['A'] = some (1, 2) ∧
    grcMemo 32 2 [] ['A'] [] ['A'] =
      some [(1, 2), (2, -3), (3, -8), (0, 2), (4, -13)] ∧
    ((0 : ℤ), (2 : ℤ)) ∈ [((1 : ℤ), (2 : ℤ)), (2, -3), (3, -8), (0, 2), (4, -13)] ∧
    (0 : ℤ) < 1 := by decide

/-- Claim C6, amended: `get_repeat_count` returns a candidate attaining
the maximum memoised score, but ties are broken by the EARLIEST
memoisation (insertion) order, not by the smallest `k`: the result is
the first element of the memo table attaining the maximal score. -/
theorem C6_first_inserted_argmax (fuel : ℕ) (start_count : ℤ)
    (tr_seq flank_left_seq flank_right_seq motif : List Char)
    (memo : List (ℤ × ℤ)) (res : ℤ × ℤ)
    (hmemo : grcMemo fuel start_count tr_seq flank_left_seq flank_right_seq motif = some memo)
    (hres : get_repeat_count fuel start_count tr_seq flank_left_seq flank_right_seq motif =
      some res) :
    isFirstMaxBySnd res memo := by
  unfold get_repeat_count at hres
  rw [hmemo] at hres
  exact pythonMaxBySnd_isFirstMax memo res hres

/-- Witness for C6 at the counterexample input. -/
theorem C6_first_inserted_argmax_witness :
    isFirstMaxBySnd (1, 2) [(1, 2), (2, -3), (3, -8), (0, 2), (4, -13)] :=
  C6_first_inserted_argmax 32 2 [] ['A'] [] ['A']
    [(1, 2), (2, -3), (3, -8), (0, 2), (4, -13)] (1, 2) (by decide) (by decide)

/-! ## Claim C7: no 64-candidate cap -/

set_option maxRecDepth 40000 in
/-- Claim C7, counterexample: the claim says the hill-climb stops once
64 distinct candidates have been scored; on `start_count = 70` with
`tr_seq = ""`, `flank_left = "A"`, `flank_right = ""`, `motif = "A"`
the code's loop memoises 73 distinct candidates (copy numbers 0..72)
and still runs to frontier exhaustion — there is no such cap anywhere
in `get_repeat_count`. -/
theorem C7_counterexample :
    (grcMemo 150 70 [] ['A'] [] ['A']).map List.length = some 73 ∧
    ¬ (73 : ℕ) ≤ 64 ∧
    (get_repeat_count 150 70 [] ['A'] [] ['A']).isSome = true := by decide

set_option maxRecDepth 40000 in
/-- Claim C7, amended: `get_repeat_count` enforces no bound on the
number of distinct candidates evaluated; the loop runs until the
exploration frontier empties, evaluating e.g. 73 distinct candidates
for the flat-landscape input with `start_count = 70`, and then returns
the first-inserted argmax of the full memo table. -/
theorem C7_no_candidate_cap :
    (grcMemo 150 70 [] ['A'] [] ['A']).map List.length = some 73 ∧
    get_repeat_count 150 70 [] ['A'] [] ['A'] = some (1, 2) := by decide

/-! ## Claim C1: failed loci produce no result -/

/-- Claim C1, counterexample: a locus whose reference flanks come back
too short (`FlankTooShort`) makes `call_locus` return `None` — no
`LocusResult` with absent call fields is produced, and hence (by
caller.py lines 289-290) the locus is absent from the worker's result
list and the merged output. -/
theorem C1_counterexample :
    call_locus 8 absentCalls 7 ⟨"chr1", 5, 8, ['A']⟩ noReads emptyRef
      4 2 100 1 none true true = .ok none ∧
    (¬ ∃ res : LocusResult, call_locus 8 absentCalls 7 ⟨"chr1", 5, 8, ['A']⟩ noReads emptyRef
      4 2 100 1 none true true = .ok (some res)) ∧
    locus_worker_results [none] = [] := by
  refine ⟨rfl, ?_, rfl⟩
  rintro ⟨res, h⟩
  rw [show call_locus 8 absentCalls 7 ⟨"chr1", 5, 8, ['A']⟩ noReads emptyRef
      4 2 100 1 none true true = .ok none from rfl] at h
  simp at h

/-- Claim C1, amended: for every locus that encounters a non-fatal
failure — a fetch exception (`CoordinateOutOfRange` / `UnknownContig`),
a reference flank shorter than `flank_size` (`FlankTooShort`), or an
unresolved ploidy (`PloidyUnresolved`) — `call_locus` returns `None`
rather than a `LocusResult` with absent call fields, and `None` results
are dropped from the worker's result list, so such loci do NOT appear
in the merged output. -/
theorem C1_failed_loci_yield_no_result :
    (∀ (fuel : ℕ) (cfn : CallAllelesFn) (t_idx : ℕ) (t : LocusRow)
        (bf : String → ℤ → ℤ → List Segment)
        (ref : String → ℤ → ℤ → Except FetchErr (List Char))
        (mr mar nb : ℕ) (F : ℤ) (sx : Option String) (rhc fhc : Bool),
      (refFetches ref (fixContig fhc t.contig) (left_flank_coord t.left_coord F)
          t.left_coord t.right_coord (right_flank_coord t.right_coord F)).2.2.2 = true →
      call_locus fuel cfn t_idx t bf ref mr mar nb F sx rhc fhc = .ok none) ∧
    (∀ (fuel : ℕ) (cfn : CallAllelesFn) (t_idx : ℕ) (t : LocusRow)
        (bf : String → ℤ → ℤ → List Segment)
        (ref : String → ℤ → ℤ → Except FetchErr (List Char))
        (mr mar nb : ℕ) (F : ℤ) (sx : Option String) (rhc fhc : Bool),
      ((((refFetches ref (fixContig fhc t.contig) (left_flank_coord t.left_coord F)
            t.left_coord t.right_coord (right_flank_coord t.right_coord F)).1.length : ℤ) < F) ∨
        (((refFetches ref (fixContig fhc t.contig) (left_flank_coord t.left_coord F)
            t.left_coord t.right_coord
            (right_flank_coord t.right_coord F)).2.1.length : ℤ) < F)) →
      call_locus fuel cfn t_idx t bf ref mr mar nb F sx rhc fhc = .ok none) ∧
    (∀ (fuel : ℕ) (cfn : CallAllelesFn) (t_idx : ℕ) (t : LocusRow)
        (bf : String → ℤ → ℤ → List Segment)
        (ref : String → ℤ → ℤ → Except FetchErr (List Char))
        (mr mar nb : ℕ) (F : ℤ) (sx : Option String) (rhc fhc : Bool)
        (lfs rfs rs : List Char) (rcp : ℤ × ℤ),
      refFetches ref (fixContig fhc t.contig) (left_flank_coord t.left_coord F)
          t.left_coord t.right_coord (right_flank_coord t.right_coord F) =
        (lfs, rfs, rs, false) →
      F ≤ (lfs.length : ℤ) → F ≤ (rfs.length : ℤ) → t.motif.length ≠ 0 →
      get_repeat_count fuel (pyRoundDiv rs.length t.motif.length) rs lfs rfs t.motif =
        some rcp →
      bf (fixContig rhc t.contig) (left_flank_coord t.left_coord F)
          (right_flank_coord t.right_coord F) = [] →
      get_n_alleles 2 sx t.contig = none →
      call_locus fuel cfn t_idx t bf ref mr mar nb F sx rhc fhc = .ok none) ∧
    (∀ rest : List (Option LocusResult),
      locus_worker_results (none :: rest) = locus_worker_results rest) := by
  refine ⟨?_, ?_, ?_, ?_⟩
  · intro fuel cfn t_idx t bf ref mr mar nb F sx rhc fhc h
    exact call_locus_raised fuel cfn t_idx t bf ref mr mar nb F sx rhc fhc h
  · intro fuel cfn t_idx t bf ref mr mar nb F sx rhc fhc h
    exact call_locus_flank_short fuel cfn t_idx t bf ref mr mar nb F sx rhc fhc h
  · intro fuel cfn t_idx t bf ref mr mar nb F sx rhc fhc lfs rfs rs rcp hfe hl hr hmot hgrc
      hbf hna
    exact call_locus_ploidy_skip fuel cfn t_idx t bf ref mr mar nb F sx rhc fhc lfs rfs rs
      rcp hfe hl hr hmot hgrc hbf hna
  · intro rest
    simp [locus_worker_results]

/-- Witness for C1: a locus whose fetches raise (`UnknownContig` kind)
and an X-chromosome locus with `sex_chroms = NONE` (`PloidyUnresolved`)
both yield `None`. -/
theorem C1_failed_loci_yield_no_result_witness :
    call_locus 8 absentCalls 7 ⟨"chr1", 5, 8, ['A']⟩ noReads failingRef
      4 2 100 1 none true true = .ok none ∧
    call_locus 60 absentCalls 1 ⟨"chrX", 1, 2, ['A']⟩ noReads polyARef
      4 2 100 0 none true true = .ok none :=
  ⟨C1_failed_loci_yield_no_result.1 8 absentCalls 7 ⟨"chr1", 5, 8, ['A']⟩ noReads failingRef
      4 2 100 1 none true true (by decide),
    C1_failed_loci_yield_no_result.2.2.1 60 absentCalls 1 ⟨"chrX", 1, 2, ['A']⟩ noReads
      polyARef 4 2 100 0 none true true ['A'] ['A'] [] (1, 4) (by decide) (by decide)
      (by decide) (by decide) (by decide) rfl (by decide)⟩

/-! ## Claim C9: boundary indices of admitted reads -/

theorem walkProcessed_sublist (lfc lc rc rfc : ℤ) (pairs : List (ℤ × ℤ)) :
    (walkProcessed lfc lc rc rfc pairs).Sublist pairs := by
  induction pairs with
  | nil => simp [walkProcessed]
  | cons p rest ih =>
      rw [walkProcessed]
      split
      · exact (List.nil_sublist rest).cons₂ p
      · exact ih.cons₂ p

theorem lastQ_cases (l : List (ℤ × ℤ)) (dflt : ℤ) (f : ℤ → ℤ) :
    lastQ l dflt f = dflt ∨ ∃ p, p ∈ l ∧ lastQ l dflt f = f p.1 := by
  cases hl : l.getLast? with
  | none => left; simp [lastQ, hl]
  | some p => right; exact ⟨p, List.mem_of_getLast?_eq_some hl, by simp [lastQ, hl]⟩

/-- In a componentwise strictly increasing pair list, the element with
the smaller reference coordinate also has the smaller query index. -/
theorem mono_q_of_mem (l : List (ℤ × ℤ))
    (hp : l.Pairwise (fun x y => x.1 < y.1 ∧ x.2 < y.2)) {a b : ℤ × ℤ}
    (ha : a ∈ l) (hb : b ∈ l) (hr : a.2 < b.2) : a.1 < b.1 := by
  obtain ⟨i, hi⟩ := List.mem_iff_get.mp ha
  obtain ⟨j, hj⟩ := List.mem_iff_get.mp hb
  rcases lt_trichotomy i j with hij | hij | hij
  · exact (hi ▸ hj ▸ List.pairwise_iff_get.mp hp i j hij).1
  · exact absurd hr (by rw [← hi, ← hj, hij]; exact lt_irrefl _)
  · exact absurd (hi ▸ hj ▸ List.pairwise_iff_get.mp hp j i hij).2
      (not_lt.mpr (le_of_lt hr))

/-- Claim C9: for every read whose aligned pairs are (as pysam
guarantees for match-only pairs) componentwise strictly increasing with
non-negative query indices, if all four boundary indices are assigned
(none is `-1`), they are all non-negative and
`left_flank_end_idx ≤ right_flank_start_idx`; and every read with an
index still `-1` after the walk is skipped, contributing neither a
count nor a weight (`readStep` yields `ok none`). -/
theorem C9_admitted_read_bounds (fuel : ℕ) (F lfc lc rc rfc : ℤ) (motif : List Char)
    (seg : Segment)
    (hq : ∀ p ∈ seg.aligned_pairs, 0 ≤ p.1)
    (hmono : seg.aligned_pairs.Pairwise (fun x y => x.1 < y.1 ∧ x.2 < y.2)) :
    ((walkPairs lfc lc rc rfc seg.aligned_pairs initFlankIdx).left_flank_start_idx ≠ -1 ∧
      (walkPairs lfc lc rc rfc seg.aligned_pairs initFlankIdx).left_flank_end_idx ≠ -1 ∧
      (walkPairs lfc lc rc rfc seg.aligned_pairs initFlankIdx).right_flank_start_idx ≠ -1 ∧
      (walkPairs lfc lc rc rfc seg.aligned_pairs initFlankIdx).right_flank_end_idx ≠ -1 →
      0 ≤ (walkPairs lfc lc rc rfc seg.aligned_pairs initFlankIdx).left_flank_start_idx ∧
      0 ≤ (walkPairs lfc lc rc rfc seg.aligned_pairs initFlankIdx).left_flank_end_idx ∧
      0 ≤ (walkPairs lfc lc rc rfc seg.aligned_pairs initFlankIdx).right_flank_start_idx ∧
      0 ≤ (walkPairs lfc lc rc rfc seg.aligned_pairs initFlankIdx).right_flank_end_idx ∧
      (walkPairs lfc lc rc rfc seg.aligned_pairs initFlankIdx).left_flank_end_idx ≤
        (walkPairs lfc lc rc rfc seg.aligned_pairs initFlankIdx).right_flank_start_idx) ∧
    ((walkPairs lfc lc rc rfc seg.aligned_pairs initFlankIdx).left_flank_start_idx = -1 ∨
      (walkPairs lfc lc rc rfc seg.aligned_pairs initFlankIdx).left_flank_end_idx = -1 ∨
      (walkPairs lfc lc rc rfc seg.aligned_pairs initFlankIdx).right_flank_start_idx = -1 ∨
      (walkPairs lfc lc rc rfc seg.aligned_pairs initFlankIdx).right_flank_end_idx = -1 →
      readStep fuel F motif lfc lc rc rfc seg = .ok none) := by
  have hsub := walkProcessed_sublist lfc lc rc rfc seg.aligned_pairs
  have hqP : ∀ p ∈ walkProcessed lfc lc rc rfc seg.aligned_pairs, 0 ≤ p.1 :=
    fun p hp => hq p (hsub.mem hp)
  have hmonoP := hmono.sublist hsub
  have hchar := walkPairs_eq lfc lc rc rfc seg.aligned_pairs initFlankIdx
  constructor
  · rintro ⟨h1, h2, h3, h4⟩
    rw [hchar] at h1 h2 h3 h4
    rw [hchar]
    simp only [initFlankIdx] at h1 h2 h3 h4 ⊢
    rcases lastQ_cases ((walkProcessed lfc lc rc rfc seg.aligned_pairs).filter
        (branchLS lfc)) (-1) id with hc1 | ⟨p1, hp1, he1⟩
    · exact absurd hc1 (by simpa [initFlankIdx] using h1)
    rcases lastQ_cases ((walkProcessed lfc lc rc rfc seg.aligned_pairs).filter
        (branchLE lfc lc)) (-1) (· + 1) with hc2 | ⟨p2, hp2, he2⟩
    · exact absurd hc2 (by simpa [initFlankIdx] using h2)
    rcases lastQ_cases ((walkProcessed lfc lc rc rfc seg.aligned_pairs).filter
        (branchRS lfc lc rc)) (-1) id with hc3 | ⟨p3, hp3, he3⟩
    · exact absurd hc3 (by simpa [initFlankIdx] using h3)
    rcases lastQ_cases ((walkProcessed lfc lc rc rfc seg.aligned_pairs).filter
        (branchRE lfc lc rc rfc)) (-1) id with hc4 | ⟨p4, hp4, he4⟩
    · exact absurd hc4 (by simpa [initFlankIdx] using h4)
    obtain ⟨hm1, hb1⟩ := List.mem_filter.mp hp1
    obtain ⟨hm2, hb2⟩ := List.mem_filter.mp hp2
    obtain ⟨hm3, hb3⟩ := List.mem_filter.mp hp3
    obtain ⟨hm4, hb4⟩ := List.mem_filter.mp hp4
    have hr2 : p2.2 < lc := ((by simpa [branchLE] using hb2 : lfc < p2.2 ∧ p2.2 < lc)).2
    have hr3 : lc ≤ p3.2 := ((by simpa [branchRS] using hb3 :
      (lfc < p3.2 ∧ lc ≤ p3.2) ∧ p3.2 < rc)).1.2
    have hq23 : p2.1 < p3.1 :=
      mono_q_of_mem _ hmonoP hm2 hm3 (lt_of_lt_of_le hr2 hr3)
    refine ⟨?_, ?_, ?_, ?_, ?_⟩
    · rw [he1]; exact hqP p1 hm1
    · rw [he2]; have := hqP p2 hm2; omega
    · rw [he3]; exact hqP p3 hm3
    · rw [he4]; exact hqP p4 hm4
    · rw [he2, he3]; simpa using hq23
  · intro h
    rw [readStep, if_pos]
    rcases h with h | h | h | h
    exacts [Or.inl h, Or.inr (Or.inl h), Or.inr (Or.inr (Or.inl h)),
      Or.inr (Or.inr (Or.inr h))]

/-- Witness for C9 at a concrete admitted read. -/
theorem C9_admitted_read_bounds_witness :
    ((∀ p ∈ [((0 : ℤ), (0 : ℤ)), (2, 2), (4, 4), (6, 9)], 0 ≤ p.1) ∧
      List.Pairwise (fun x y => x.1 < y.1 ∧ x.2 < y.2)
        [((0 : ℤ), (0 : ℤ)), (2, 2), (4, 4), (6, 9)]) ∧
    (0 ≤ (walkPairs 0 3 6 9 [((0 : ℤ), (0 : ℤ)), (2, 2), (4, 4), (6, 9)]
        initFlankIdx).left_flank_start_idx ∧
      0 ≤ (walkPairs 0 3 6 9 [((0 : ℤ), (0 : ℤ)), (2, 2), (4, 4), (6, 9)]
        initFlankIdx).left_flank_end_idx ∧
      0 ≤ (walkPairs 0 3 6 9 [((0 : ℤ), (0 : ℤ)), (2, 2), (4, 4), (6, 9)]
        initFlankIdx).right_flank_start_idx ∧
      0 ≤ (walkPairs 0 3 6 9 [((0 : ℤ), (0 : ℤ)), (2, 2), (4, 4), (6, 9)]
        initFlankIdx).right_flank_end_idx ∧
      (walkPairs 0 3 6 9 [((0 : ℤ), (0 : ℤ)), (2, 2), (4, 4), (6, 9)]
        initFlankIdx).left_flank_end_idx ≤
        (walkPairs 0 3 6 9 [((0 : ℤ), (0 : ℤ)), (2, 2), (4, 4), (6, 9)]
          initFlankIdx).right_flank_start_idx) :=
  ⟨⟨by decide, by decide⟩,
    (C9_admitted_read_bounds 1 70 0 3 6 9 ['A']
      ⟨"read1", ['A'], 10, [(0, 0), (2, 2), (4, 4), (6, 9)]⟩ (by decide) (by decide)).1
      (by decide)⟩

/-! ## Claim C10: termination of the exploration loop

The proof is organised as follows.  The memo table only ever stores
values of the (pure) score function (`MemoOK`) and only grows
(`MemoExt`).  Every loop iteration pops one candidate and pushes at
most one (the two push guards are mutually exclusive); a pushed
candidate is therefore popped at the very next iteration, so an
execution is a sequence of *chains* of pushes hanging off the three
initial stack entries.  Each chain step strictly decreases the measure
`chainM`: a downward chain decreases the candidate, and an upward chain
strictly increases the score `s (k+1)` it climbs towards — which is
bounded above by twice the database length — while revisiting a
direction is blocked because the revisited candidate is already
memoised (`ChainInv`). -/

/-- Every value stored in the memo table is the score of its key. -/
def MemoOK (s : ℤ → ℤ) (memo : List (ℤ × ℤ)) : Prop :=
  ∀ i v, memoLookup memo i = some v → v = s i

/-- All lookups that succeed in `m₁` still succeed, with the same
value, in `m₂` (the memo table only grows). -/
def MemoExt (m₁ m₂ : List (ℤ × ℤ)) : Prop :=
  ∀ i v, memoLookup m₁ i = some v → memoLookup m₂ i = some v

theorem memoLookup_ne_nil {m : List (ℤ × ℤ)} {i v : ℤ}
    (h : memoLookup m i = some v) : m ≠ [] := by
  intro hm
  rw [hm] at h
  simp [memoLookup] at h

theorem memoLookup_append (m Δ : List (ℤ × ℤ)) (j : ℤ) :
    memoLookup (m ++ Δ) j =
      match memoLookup m j with
      | some v => some v
      | none => memoLookup Δ j := by
  induction m with
  | nil => simp [memoLookup]
  | cons p ps ih =>
      rw [List.cons_append, memoLookup, memoLookup]
      split
      · rfl
      · exact ih

theorem memoLookup_append_left {m : List (ℤ × ℤ)} (Δ : List (ℤ × ℤ)) {i v : ℤ}
    (h : memoLookup m i = some v) : memoLookup (m ++ Δ) i = some v := by
  rw [memoLookup_append, h]

theorem memoExt_append (m Δ : List (ℤ × ℤ)) : MemoExt m (m ++ Δ) :=
  fun _ _ h => memoLookup_append_left Δ h

theorem memoExt_refl (m : List (ℤ × ℤ)) : MemoExt m m := fun _ _ h => h

theorem memoExt_trans {m₁ m₂ m₃ : List (ℤ × ℤ)} (h1 : MemoExt m₁ m₂) (h2 : MemoExt m₂ m₃) :
    MemoExt m₁ m₃ := fun i v h => h2 i v (h1 i v h)

theorem memoOK_append_single {s : ℤ → ℤ} {m : List (ℤ × ℤ)} (hOK : MemoOK s m) (i : ℤ) :
    MemoOK s (m ++ [(i, s i)]) := by
  intro j v h
  rw [memoLookup_append] at h
  cases hm : memoLookup m j with
  | some w =>
      rw [hm] at h
      simp only [Option.some.injEq] at h
      rw [← h]
      exact hOK j w hm
  | none =>
      rw [hm] at h
      simp only [memoLookup] at h
      split at h
      · rename_i hij
        simp only [Option.some.injEq] at h
        subst h
        rw [show i = j from hij]
      · exact Option.noConfusion h

theorem memoLookup_append_singleton_self (m : List (ℤ × ℤ)) (i v : ℤ)
    (h : memoLookup m i = none) : memoLookup (m ++ [(i, v)]) i = some v := by
  rw [memoLookup_append, h]
  simp [memoLookup]

/-- Specification of the inner window loop: the memo stays faithful and
only grows, `szs` collects `(i, s i)` for the non-negative window
members in order, and every non-negative window member is memoised
afterwards. -/
theorem evalWindowGo_spec (s : ℤ → ℤ) :
    ∀ (is : List ℤ) (memo szs : List (ℤ × ℤ)), MemoOK s memo →
      MemoOK s (evalWindowGo s is memo szs).1 ∧
      MemoExt memo (evalWindowGo s is memo szs).1 ∧
      (evalWindowGo s is memo szs).2 =
        szs ++ (is.filter (fun i => !(i < 0 : Bool))).map (fun i => (i, s i)) ∧
      (∀ i, i ∈ is → 0 ≤ i → memoLookup (evalWindowGo s is memo szs).1 i = some (s i)) := by
  intro is
  induction is with
  | nil =>
      intro memo szs hOK
      exact ⟨hOK, memoExt_refl memo, by simp [evalWindowGo], by simp⟩
  | cons i is ih =>
      intro memo szs hOK
      by_cases hi : i < 0
      · have hstep : evalWindowGo s (i :: is) memo szs = evalWindowGo s is memo szs := by
          rw [evalWindowGo, if_pos hi]
        obtain ⟨a, b, c, d⟩ := ih memo szs hOK
        rw [hstep]
        refine ⟨a, b, ?_, ?_⟩
        · rw [c]; simp [hi]
        · intro j hj hj0
          rcases List.mem_cons.mp hj with h | h
          · omega
          · exact d j h hj0
      · cases hl : memoLookup memo i with
        | some rs =>
            have hrs : rs = s i := hOK i rs hl
            have hstep : evalWindowGo s (i :: is) memo szs =
                evalWindowGo s is memo (szs ++ [(i, rs)]) := by
              rw [evalWindowGo, if_neg hi, hl]
            obtain ⟨a, b, c, d⟩ := ih memo (szs ++ [(i, rs)]) hOK
            rw [hstep]
            refine ⟨a, b, ?_, ?_⟩
            · rw [c, hrs]; simp [hi]
            · intro j hj hj0
              rcases List.mem_cons.mp hj with h | h
              · subst h; exact b j (s j) (hrs ▸ hl)
              · exact d j h hj0
        | none =>
            have hOK' : MemoOK s (memo ++ [(i, s i)]) := memoOK_append_single hOK i
            have hstep : evalWindowGo s (i :: is) memo szs =
                evalWindowGo s is (memo ++ [(i, s i)]) (szs ++ [(i, s i)]) := by
              rw [evalWindowGo, if_neg hi, hl]
            obtain ⟨a, b, c, d⟩ := ih (memo ++ [(i, s i)]) (szs ++ [(i, s i)]) hOK'
            rw [hstep]
            refine ⟨a, memoExt_trans (memoExt_append memo [(i, s i)]) b, ?_, ?_⟩
            · rw [c]; simp [hi]
            · intro j hj hj0
              rcases List.mem_cons.mp hj with h | h
              · subst h
                exact b j (s j) (memoLookup_append_singleton_self memo j (s j) hl)
              · exact d j h hj0

theorem evalWindow_spec (s : ℤ → ℤ) (k : ℤ) (memo : List (ℤ × ℤ)) (hOK : MemoOK s memo) :
    MemoOK s (evalWindow s k memo).1 ∧ MemoExt memo (evalWindow s k memo).1 ∧
    ∀ i, 0 ≤ i → k - 1 ≤ i → i ≤ k + 1 →
      memoLookup (evalWindow s k memo).1 i = some (s i) := by
  obtain ⟨a, b, _, d⟩ := evalWindowGo_spec s [k - 1, k, k + 1] memo [] hOK
  refine ⟨a, b, ?_⟩
  intro i h0 hlo hhi
  have hmem : i ∈ [k - 1, k, k + 1] := by
    have : i = k - 1 ∨ i = k ∨ i = k + 1 := by omega
    rcases this with h | h | h <;> simp [h]
  exact d i hmem h0

theorem evalWindow_szs_pos (s : ℤ → ℤ) (k : ℤ) (memo : List (ℤ × ℤ)) (hk : 1 ≤ k)
    (hOK : MemoOK s memo) :
    (evalWindow s k memo).2 = [(k - 1, s (k - 1)), (k, s k), (k + 1, s (k + 1))] := by
  obtain ⟨-, -, c, -⟩ := evalWindowGo_spec s [k - 1, k, k + 1] memo [] hOK
  rw [show (evalWindow s k memo).2 = (evalWindowGo s [k - 1, k, k + 1] memo []).2 from rfl, c]
  have h1 : ¬ (k - 1 : ℤ) < 0 := by omega
  have h2 : ¬ (k : ℤ) < 0 := by omega
  have h3 : ¬ (k + 1 : ℤ) < 0 := by omega
  simp [h1, h2, h3]

theorem evalWindow_szs_zero (s : ℤ → ℤ) (memo : List (ℤ × ℤ)) (hOK : MemoOK s memo) :
    (evalWindow s 0 memo).2 = [(0, s 0), (1, s 1)] := by
  obtain ⟨-, -, c, -⟩ := evalWindowGo_spec s [0 - 1, 0, 0 + 1] memo [] hOK
  rw [show (evalWindow s 0 memo).2 = (evalWindowGo s [0 - 1, 0, 0 + 1] memo []).2 from rfl, c]
  norm_num

theorem evalWindow_szs_neg (s : ℤ → ℤ) (memo : List (ℤ × ℤ)) (hOK : MemoOK s memo) :
    (evalWindow s (-1) memo).2 = [(0, s 0)] := by
  obtain ⟨-, -, c, -⟩ := evalWindowGo_spec s [-1 - 1, -1, -1 + 1] memo [] hOK
  rw [show (evalWindow s (-1) memo).2 = (evalWindowGo s [-1 - 1, -1, -1 + 1] memo []).2 from
    rfl, c]
  norm_num

theorem pyMax_one (a : ℤ × ℤ) : pythonMaxBySnd [a] = some a := rfl

theorem pyMax_two (a b : ℤ × ℤ) :
    pythonMaxBySnd [a, b] = some (if b.2 > a.2 then b else a) := rfl

theorem pyMax_three (a b c : ℤ × ℤ) :
    pythonMaxBySnd [a, b, c] =
      some (if c.2 > (if b.2 > a.2 then b else a).2 then c
        else if b.2 > a.2 then b else a) := rfl

theorem grcLoop_cons (s : ℤ → ℤ) (f : ℕ) (k d : ℤ) (rest memo : List (ℤ × ℤ)) :
    grcLoop s (f + 1) ((k, d) :: rest) memo =
      match pythonMaxBySnd (evalWindow s k memo).2 with
      | none => none
      | some mv =>
          grcLoop s f
            (if mv.1 > k ∧ memoLookup (evalWindow s k memo).1 (mv.1 + 1) = none then
              (mv.1 + 1, 1) :: rest
            else if mv.1 < k ∧ memoLookup (evalWindow s k memo).1 (mv.1 - 1) = none then
              (mv.1 - 1, -1) :: rest
            else rest) (evalWindow s k memo).1 := rfl

theorem grcLoop_cons_mv (s : ℤ → ℤ) (f : ℕ) (k d : ℤ) (rest memo : List (ℤ × ℤ))
    (mv : ℤ × ℤ) (hmv : pythonMaxBySnd (evalWindow s k memo).2 = some mv) :
    grcLoop s (f + 1) ((k, d) :: rest) memo =
      grcLoop s f
        (if mv.1 > k ∧ memoLookup (evalWindow s k memo).1 (mv.1 + 1) = none then
          (mv.1 + 1, 1) :: rest
        else if mv.1 < k ∧ memoLookup (evalWindow s k memo).1 (mv.1 - 1) = none then
          (mv.1 - 1, -1) :: rest
        else rest) (evalWindow s k memo).1 := by
  rw [grcLoop_cons, hmv]

/-- The invariant carried by chain-pushed stack entries: an upward
entry `(k, 1)` climbs from the already-memoised `k - 2` (or is the
special entry `(1, 1)`), and a downward (or initial-direction) entry
`(k, d)` descends from the already-memoised `k + 2`, with `(-1, d)`
only ever pushed after candidate 1 was memoised. -/
def ChainInv (memo : List (ℤ × ℤ)) (k d : ℤ) : Prop :=
  if d = 1 then 1 ≤ k ∧ (memoLookup memo (k - 2) ≠ none ∨ k = 1)
  else (k = -1 ∧ memoLookup memo 1 ≠ none) ∨
    (0 ≤ k ∧ (memoLookup memo (k + 2) ≠ none ∨ d = 0))

/-- Chain measure: upward entries strictly decrease
`B - s (k - 1)` (the gap between the score they climb past and the
global score bound), downward entries strictly decrease the candidate,
and `-1` terminates immediately. -/
def chainM (B : ℤ) (s : ℤ → ℤ) (k d : ℤ) : ℕ :=
  if k = -1 then 0
  else if d = 1 then (B - s (k - 1)).toNat + 1
  else (k + 2).toNat + (B - s (k + 1)).toNat + 2

/-- Chain lemma: popping a stack entry that satisfies the chain
invariant drains, in finitely many iterations, the entire chain of
pushes it gives rise to, leaving the rest of the stack untouched, the
memo table extended (with the popped entry's whole window memoised),
and the fuel consumption independent of the rest of the stack. -/
theorem grc_chain (B : ℤ) (s : ℤ → ℤ) (hB : ∀ i : ℤ, 0 ≤ i → s i ≤ B) :
    ∀ (n : ℕ) (k d : ℤ) (memo : List (ℤ × ℤ)),
      chainM B s k d ≤ n → -1 ≤ k → MemoOK s memo → ChainInv memo k d →
      ∃ (j : ℕ) (memo₂ : List (ℤ × ℤ)), MemoOK s memo₂ ∧ MemoExt memo memo₂ ∧
        memo₂ ≠ [] ∧
        (∀ i, 0 ≤ i → k - 1 ≤ i → i ≤ k + 1 → memoLookup memo₂ i = some (s i)) ∧
        ∀ (f : ℕ) (rest : List (ℤ × ℤ)),
          grcLoop s (f + j) ((k, d) :: rest) memo = grcLoop s f rest memo₂ := by
  intro n
  induction n using Nat.strong_induction_on with
  | _ n ih =>
    intro k d memo hm hk hOK hinv
    obtain ⟨hOK', hext', hlook⟩ := evalWindow_spec s k memo hOK
    by_cases hkneg : k = -1
    · subst hkneg
      have h1mem : memoLookup memo 1 ≠ none := by
        unfold ChainInv at hinv
        split at hinv
        · exact absurd hinv.1 (by norm_num)
        · rcases hinv with ⟨-, h⟩ | ⟨h0, -⟩
          · exact h
          · exact absurd h0 (by norm_num)
      obtain ⟨v1, hv1⟩ : ∃ v, memoLookup memo 1 = some v := by
        cases hv : memoLookup memo 1
        · exact absurd hv h1mem
        · exact ⟨_, rfl⟩
      have h1mem' : memoLookup (evalWindow s (-1) memo).1 1 = some v1 := hext' 1 v1 hv1
      have hmv : pythonMaxBySnd (evalWindow s (-1) memo).2 = some (0, s 0) := by
        rw [evalWindow_szs_neg s memo hOK, pyMax_one]
      refine ⟨1, (evalWindow s (-1) memo).1, hOK', hext',
        memoLookup_ne_nil (hlook 0 (by norm_num) (by norm_num) (by norm_num)), hlook, ?_⟩
      intro f rest
      rw [grcLoop_cons_mv s f (-1) d rest memo (0, s 0) hmv]
      have hc1 : ¬ (((0 : ℤ), s 0).1 > (-1 : ℤ) ∧
          memoLookup (evalWindow s (-1) memo).1 (((0 : ℤ), s 0).1 + 1) = none) := by
        rintro ⟨-, hc⟩
        rw [show (((0 : ℤ), s 0).1 + 1 : ℤ) = 1 by norm_num, h1mem'] at hc
        exact Option.noConfusion hc
      have hc2 : ¬ (((0 : ℤ), s 0).1 < (-1 : ℤ) ∧
          memoLookup (evalWindow s (-1) memo).1 (((0 : ℤ), s 0).1 - 1) = none) := by
        rintro ⟨hc, -⟩
        norm_num at hc
      rw [if_neg hc1, if_neg hc2]
    · by_cases hk0 : k = 0
      · subst hk0
        have hinv0 : memoLookup memo (0 + 2) ≠ none ∨ d = 0 := by
          unfold ChainInv at hinv
          split at hinv
          · exact absurd hinv.1 (by norm_num)
          · rcases hinv with ⟨h, -⟩ | ⟨-, h⟩
            · exact absurd h (by norm_num)
            · exact h
        by_cases hc : s 1 > s 0
        · have hmv : pythonMaxBySnd (evalWindow s 0 memo).2 = some (1, s 1) := by
            rw [evalWindow_szs_zero s memo hOK, pyMax_two,
              if_pos (show ((1 : ℤ), s 1).2 > ((0 : ℤ), s 0).2 from hc)]
          by_cases hpush : memoLookup (evalWindow s 0 memo).1 (0 + 2) = none
          · -- a push of (2, 1) happens; only possible for the initial entry
            rcases hinv0 with hmem | hd0
            · exfalso
              obtain ⟨v, hv⟩ : ∃ v, memoLookup memo (0 + 2) = some v := by
                cases hv : memoLookup memo (0 + 2)
                · exact absurd hv hmem
                · exact ⟨_, rfl⟩
              rw [hext' (0 + 2) v hv] at hpush
              exact Option.noConfusion hpush
            · have hinv' : ChainInv (evalWindow s 0 memo).1 2 1 := by
                unfold ChainInv
                rw [if_pos rfl]
                refine ⟨by norm_num, Or.inl ?_⟩
                rw [show (2 : ℤ) - 2 = 0 by norm_num,
                  hlook 0 (by norm_num) (by norm_num) (by norm_num)]
                exact fun hcon => Option.noConfusion hcon
              have hmlt : chainM B s 2 1 < chainM B s 0 d := by
                unfold chainM
                rw [if_neg (by norm_num : ¬ (2 : ℤ) = -1), if_pos rfl,
                  if_neg (by norm_num : ¬ (0 : ℤ) = -1), if_neg (by rw [hd0]; norm_num)]
                rw [show (2 : ℤ) - 1 = 0 + 1 by norm_num]
                omega
              obtain ⟨j', memo₂, hOK₂, hext₂, hne₂, hwin₂, hrec⟩ :=
                ih (chainM B s 2 1) (lt_of_lt_of_le hmlt hm) 2 1
                  (evalWindow s 0 memo).1 (le_refl _) (by norm_num) hOK' hinv'
              refine ⟨j' + 1, memo₂, hOK₂, memoExt_trans hext' hext₂, hne₂,
                fun i h1 h2 h3 => hext₂ i (s i) (hlook i h1 h2 h3), ?_⟩
              intro f rest
              have heq : f + (j' + 1) = (f + j') + 1 := by omega
              rw [heq, grcLoop_cons_mv s (f + j') 0 d rest memo (1, s 1) hmv]
              rw [if_pos (show ((1 : ℤ), s 1).1 > (0 : ℤ) ∧
                  memoLookup (evalWindow s 0 memo).1 (((1 : ℤ), s 1).1 + 1) = none from
                ⟨by norm_num, by
                  rw [show (((1 : ℤ), s 1).1 + 1 : ℤ) = 0 + 2 by norm_num]
                  exact hpush⟩)]
              rw [show (((1 : ℤ), s 1).1 + 1 : ℤ) = 2 by norm_num]
              exact hrec f rest
          · refine ⟨1, (evalWindow s 0 memo).1, hOK', hext',
              memoLookup_ne_nil (hlook 0 (by norm_num) (by norm_num) (by norm_num)),
              hlook, ?_⟩
            intro f rest
            rw [grcLoop_cons_mv s f 0 d rest memo (1, s 1) hmv]
            have hcc1 : ¬ (((1 : ℤ), s 1).1 > (0 : ℤ) ∧
                memoLookup (evalWindow s 0 memo).1 (((1 : ℤ), s 1).1 + 1) = none) := by
              rintro ⟨-, hcon⟩
              rw [show (((1 : ℤ), s 1).1 + 1 : ℤ) = 0 + 2 by norm_num] at hcon
              exact hpush hcon
            have hcc2 : ¬ (((1 : ℤ), s 1).1 < (0 : ℤ) ∧
                memoLookup (evalWindow s 0 memo).1 (((1 : ℤ), s 1).1 - 1) = none) := by
              rintro ⟨hcon, -⟩
              norm_num at hcon
            rw [if_neg hcc1, if_neg hcc2]
        · have hmv : pythonMaxBySnd (evalWindow s 0 memo).2 = some (0, s 0) := by
            rw [evalWindow_szs_zero s memo hOK, pyMax_two,
              if_neg (show ¬ ((1 : ℤ), s 1).2 > ((0 : ℤ), s 0).2 from hc)]
          refine ⟨1, (evalWindow s 0 memo).1, hOK', hext',
            memoLookup_ne_nil (hlook 0 (by norm_num) (by norm_num) (by norm_num)),
            hlook, ?_⟩
          intro f rest
          rw [grcLoop_cons_mv s f 0 d rest memo (0, s 0) hmv]
          have hcc1 : ¬ (((0 : ℤ), s 0).1 > (0 : ℤ) ∧
              memoLookup (evalWindow s 0 memo).1 (((0 : ℤ), s 0).1 + 1) = none) := by
            rintro ⟨hcon, -⟩
            norm_num at hcon
          have hcc2 : ¬ (((0 : ℤ), s 0).1 < (0 : ℤ) ∧
              memoLookup (evalWindow s 0 memo).1 (((0 : ℤ), s 0).1 - 1) = none) := by
            rintro ⟨hcon, -⟩
            norm_num at hcon
          rw [if_neg hcc1, if_neg hcc2]
      · -- k ≥ 1
        have hk1 : (1 : ℤ) ≤ k := by omega
        have hszs := evalWindow_szs_pos s k memo hk1 hOK
        have hlk : memoLookup (evalWindow s k memo).1 k = some (s k) :=
          hlook k (by omega) (by omega) (by omega)
        have hlkm : memoLookup (evalWindow s k memo).1 (k - 1) = some (s (k - 1)) :=
          hlook (k - 1) (by omega) (by omega) (by omega)
        have hne : (evalWindow s k memo).1 ≠ [] := memoLookup_ne_nil hlk
        -- the first maximum of the three-entry window
        by_cases hup : s (k + 1) > s k ∧ s (k + 1) > s (k - 1)
        · -- mv = (k+1, s (k+1)); upward
          have hmv : pythonMaxBySnd (evalWindow s k memo).2 = some (k + 1, s (k + 1)) := by
            rw [hszs, pyMax_three]
            by_cases hc1 : s k > s (k - 1)
            · rw [if_pos (show ((k, s k) : ℤ × ℤ).2 > ((k - 1, s (k - 1)) : ℤ × ℤ).2
                from hc1),
                if_pos (show ((k + 1, s (k + 1)) : ℤ × ℤ).2 > ((k, s k) : ℤ × ℤ).2
                from hup.1)]
            · rw [if_neg (show ¬ ((k, s k) : ℤ × ℤ).2 > ((k - 1, s (k - 1)) : ℤ × ℤ).2
                from hc1),
                if_pos (show ((k + 1, s (k + 1)) : ℤ × ℤ).2 >
                  ((k - 1, s (k - 1)) : ℤ × ℤ).2 from hup.2)]
          by_cases hpush : memoLookup (evalWindow s k memo).1 (k + 2) = none
          · -- a push of (k+2, 1) happens
            have hrecurse :
                chainM B s (k + 2) 1 < chainM B s k d := by
              unfold chainM
              rw [if_neg (by omega : ¬ (k : ℤ) + 2 = -1), if_pos rfl,
                if_neg (by omega : ¬ (k : ℤ) = -1)]
              have e1 : (k : ℤ) + 2 - 1 = k + 1 := by ring
              rw [e1]
              by_cases hd : d = 1
              · rw [if_pos hd]
                -- for upward entries the score being climbed past strictly increases
                have hup' : s (k + 1) > s (k - 1) := hup.2
                have hsB : s (k + 1) ≤ B := hB (k + 1) (by omega)
                omega
              · rw [if_neg hd]
                omega
            have hok_d : d = 1 → s (k + 1) > s (k - 1) := fun _ => hup.2
            -- if d is neither 1 nor 0, ChainInv forbids the push
            have hdcase : d = 1 ∨ d = 0 ∨ memoLookup memo (k + 2) ≠ none := by
              by_cases hd : d = 1
              · exact Or.inl hd
              · unfold ChainInv at hinv
                rw [if_neg hd] at hinv
                rcases hinv with ⟨hkm, -⟩ | ⟨-, h | h⟩
                · omega
                · exact Or.inr (Or.inr h)
                · exact Or.inr (Or.inl h)
            have hpush_memo : ¬ memoLookup memo (k + 2) ≠ none := by
              intro hmem
              obtain ⟨v, hv⟩ : ∃ v, memoLookup memo (k + 2) = some v := by
                cases hv : memoLookup memo (k + 2)
                · exact absurd hv hmem
                · exact ⟨_, rfl⟩
              rw [hext' (k + 2) v hv] at hpush
              exact Option.noConfusion hpush
            have hinv' : ChainInv (evalWindow s k memo).1 (k + 2) 1 := by
              unfold ChainInv
              rw [if_pos rfl]
              refine ⟨by omega, Or.inl ?_⟩
              have e : (k : ℤ) + 2 - 2 = k := by ring
              rw [e, hlk]
              exact fun hcon => Option.noConfusion hcon
            obtain ⟨j', memo₂, hOK₂, hext₂, hne₂, hwin₂, hrec⟩ :=
              ih (chainM B s (k + 2) 1) (lt_of_lt_of_le hrecurse hm) (k + 2) 1
                (evalWindow s k memo).1 (le_refl _) (by omega) hOK' hinv'
            refine ⟨j' + 1, memo₂, hOK₂, memoExt_trans hext' hext₂, hne₂,
              fun i h1 h2 h3 => hext₂ i (s i) (hlook i h1 h2 h3), ?_⟩
            intro f rest
            have heq : f + (j' + 1) = (f + j') + 1 := by omega
            rw [heq, grcLoop_cons_mv s (f + j') k d rest memo (k + 1, s (k + 1)) hmv]
            rw [if_pos (show ((k + 1, s (k + 1)) : ℤ × ℤ).1 > k ∧
                memoLookup (evalWindow s k memo).1
                  (((k + 1, s (k + 1)) : ℤ × ℤ).1 + 1) = none from
              ⟨by simp only; omega, by
                have e : ((k + 1, s (k + 1)) : ℤ × ℤ).1 + 1 = k + 2 := by
                  simp only; ring
                rw [e]; exact hpush⟩)]
            have e2 : ((k + 1, s (k + 1)) : ℤ × ℤ).1 + 1 = k + 2 := by simp only; ring
            rw [e2]
            exact hrec f rest
          · -- no push: the chain ends here
            refine ⟨1, (evalWindow s k memo).1, hOK', hext', hne, hlook, ?_⟩
            intro f rest
            rw [grcLoop_cons_mv s f k d rest memo (k + 1, s (k + 1)) hmv]
            have hcc1 : ¬ (((k + 1, s (k + 1)) : ℤ × ℤ).1 > k ∧
                memoLookup (evalWindow s k memo).1
                  (((k + 1, s (k + 1)) : ℤ × ℤ).1 + 1) = none) := by
              rintro ⟨-, hcon⟩
              have e : ((k + 1, s (k + 1)) : ℤ × ℤ).1 + 1 = k + 2 := by simp only; ring
              rw [e] at hcon
              exact hpush hcon
            have hcc2 : ¬ (((k + 1, s (k + 1)) : ℤ × ℤ).1 < k ∧
                memoLookup (evalWindow s k memo).1
                  (((k + 1, s (k + 1)) : ℤ × ℤ).1 - 1) = none) := by
              rintro ⟨hcon, -⟩
              simp only at hcon
              omega
            rw [if_neg hcc1, if_neg hcc2]
        · -- mv is (k, s k) or (k-1, s (k-1))
          by_cases hc1 : s k > s (k - 1)
          · -- mv = (k, s k): hup fails via its first conjunct; no push
            have hnotup : ¬ s (k + 1) > s k := fun hcon =>
              hup ⟨hcon, lt_trans hc1 hcon⟩
            have hmv : pythonMaxBySnd (evalWindow s k memo).2 = some (k, s k) := by
              rw [hszs, pyMax_three,
                if_pos (show ((k, s k) : ℤ × ℤ).2 > ((k - 1, s (k - 1)) : ℤ × ℤ).2
                  from hc1),
                if_neg (show ¬ ((k + 1, s (k + 1)) : ℤ × ℤ).2 > ((k, s k) : ℤ × ℤ).2
                  from hnotup)]
            refine ⟨1, (evalWindow s k memo).1, hOK', hext', hne, hlook, ?_⟩
            intro f rest
            rw [grcLoop_cons_mv s f k d rest memo (k, s k) hmv]
            have hcc1 : ¬ (((k, s k) : ℤ × ℤ).1 > k ∧
                memoLookup (evalWindow s k memo).1 (((k, s k) : ℤ × ℤ).1 + 1) = none) := by
              rintro ⟨hcon, -⟩
              simp only at hcon
              omega
            have hcc2 : ¬ (((k, s k) : ℤ × ℤ).1 < k ∧
                memoLookup (evalWindow s k memo).1 (((k, s k) : ℤ × ℤ).1 - 1) = none) := by
              rintro ⟨hcon, -⟩
              simp only at hcon
              omega
            rw [if_neg hcc1, if_neg hcc2]
          · -- mv = (k-1, s (k-1)) unless the top strictly beats it
            by_cases hc2 : s (k + 1) > s (k - 1)
            · -- then also s (k+1) > s k (since s k ≤ s (k-1)), contradicting ¬hup
              exact absurd ⟨lt_of_le_of_lt (not_lt.mp hc1) hc2, hc2⟩ hup
            · have hmv : pythonMaxBySnd (evalWindow s k memo).2 =
                  some (k - 1, s (k - 1)) := by
                rw [hszs, pyMax_three,
                  if_neg (show ¬ ((k, s k) : ℤ × ℤ).2 > ((k - 1, s (k - 1)) : ℤ × ℤ).2
                    from hc1),
                  if_neg (show ¬ ((k + 1, s (k + 1)) : ℤ × ℤ).2 >
                    ((k - 1, s (k - 1)) : ℤ × ℤ).2 from hc2)]
              by_cases hpush : memoLookup (evalWindow s k memo).1 (k - 2) = none
              · -- a push of (k-2, -1) happens
                have hinv' : ChainInv (evalWindow s k memo).1 (k - 2) (-1) := by
                  unfold ChainInv
                  rw [if_neg (by norm_num : ¬ (-1 : ℤ) = 1)]
                  by_cases hk2 : k - 2 = -1
                  · refine Or.inl ⟨hk2, ?_⟩
                    have e : (1 : ℤ) = k := by omega
                    rw [e, hlk]
                    exact fun hcon => Option.noConfusion hcon
                  · refine Or.inr ⟨by omega, Or.inl ?_⟩
                    have e : (k : ℤ) - 2 + 2 = k := by ring
                    rw [e, hlk]
                    exact fun hcon => Option.noConfusion hcon
                have hdown : ¬ d = 1 ∨ k = 1 := by
                  by_cases hd : d = 1
                  · subst hd
                    unfold ChainInv at hinv
                    rw [if_pos rfl] at hinv
                    rcases hinv.2 with hmem | hone
                    · exfalso
                      obtain ⟨v, hv⟩ : ∃ v, memoLookup memo (k - 2) = some v := by
                        cases hv : memoLookup memo (k - 2)
                        · exact absurd hv hmem
                        · exact ⟨_, rfl⟩
                      rw [hext' (k - 2) v hv] at hpush
                      exact Option.noConfusion hpush
                    · exact Or.inr hone
                  · exact Or.inl hd
                have hmlt : chainM B s (k - 2) (-1) < chainM B s k d := by
                  unfold chainM
                  by_cases hk2 : k - 2 = -1
                  · rw [if_pos hk2]
                    rw [if_neg (by omega : ¬ (k : ℤ) = -1)]
                    split
                    · omega
                    · omega
                  · rcases hdown with hd | hd
                    · rw [if_neg hk2, if_neg (by norm_num : ¬ (-1 : ℤ) = 1),
                        if_neg (by omega : ¬ (k : ℤ) = -1), if_neg hd]
                      have e1 : (k : ℤ) - 2 + 1 = k - 1 := by ring
                      have e2 : (k : ℤ) - 2 + 2 = k := by ring
                      rw [e1, e2]
                      have hble : B - s (k - 1) ≤ B - s (k + 1) := by omega
                      omega
                    · omega
                obtain ⟨j', memo₂, hOK₂, hext₂, hne₂, hwin₂, hrec⟩ :=
                  ih (chainM B s (k - 2) (-1)) (lt_of_lt_of_le hmlt hm) (k - 2) (-1)
                    (evalWindow s k memo).1 (le_refl _) (by omega) hOK' hinv'
                refine ⟨j' + 1, memo₂, hOK₂, memoExt_trans hext' hext₂, hne₂,
                  fun i h1 h2 h3 => hext₂ i (s i) (hlook i h1 h2 h3), ?_⟩
                intro f rest
                have heq : f + (j' + 1) = (f + j') + 1 := by omega
                rw [heq, grcLoop_cons_mv s (f + j') k d rest memo (k - 1, s (k - 1)) hmv]
                have hcc1 : ¬ (((k - 1, s (k - 1)) : ℤ × ℤ).1 > k ∧
                    memoLookup (evalWindow s k memo).1
                      (((k - 1, s (k - 1)) : ℤ × ℤ).1 + 1) = none) := by
                  rintro ⟨hcon, -⟩
                  simp only at hcon
                  omega
                rw [if_neg hcc1]
                rw [if_pos (show ((k - 1, s (k - 1)) : ℤ × ℤ).1 < k ∧
                    memoLookup (evalWindow s k memo).1
                      (((k - 1, s (k - 1)) : ℤ × ℤ).1 - 1) = none from
                  ⟨by simp only; omega, by
                    have e : ((k - 1, s (k - 1)) : ℤ × ℤ).1 - 1 = k - 2 := by
                      simp only; ring
                    rw [e]; exact hpush⟩)]
                have e2 : ((k - 1, s (k - 1)) : ℤ × ℤ).1 - 1 = k - 2 := by simp only; ring
                rw [e2]
                exact hrec f rest
              · -- no push
                refine ⟨1, (evalWindow s k memo).1, hOK', hext', hne, hlook, ?_⟩
                intro f rest
                rw [grcLoop_cons_mv s f k d rest memo (k - 1, s (k - 1)) hmv]
                have hcc1 : ¬ (((k - 1, s (k - 1)) : ℤ × ℤ).1 > k ∧
                    memoLookup (evalWindow s k memo).1
                      (((k - 1, s (k - 1)) : ℤ × ℤ).1 + 1) = none) := by
                  rintro ⟨hcon, -⟩
                  simp only at hcon
                  omega
                have hcc2 : ¬ (((k - 1, s (k - 1)) : ℤ × ℤ).1 < k ∧
                    memoLookup (evalWindow s k memo).1
                      (((k - 1, s (k - 1)) : ℤ × ℤ).1 - 1) = none) := by
                  rintro ⟨-, hcon⟩
                  have e : ((k - 1, s (k - 1)) : ℤ × ℤ).1 - 1 = k - 2 := by
                    simp only; ring
                  rw [e] at hcon
                  exact hpush hcon
                rw [if_neg hcc1, if_neg hcc2]

/-! ### Score upper bound

Every cell of the semi-global DP matrix in column `j` is at most
`match_score * j = 2 * j` (a match gains at most 2 per database
character consumed, and gaps never gain), so both alignment scores —
and hence `grcScore` — are bounded above by twice the database length
plus two, uniformly in the query.  This is the bound `B` the chain
measure needs. -/

/-- Cells of a DP row starting at column `j` are bounded by `2 * column`. -/
def rowBnd (j : ℤ) : List ℤ → Prop
  | [] => True
  | x :: xs => x ≤ 2 * j ∧ rowBnd (j + 1) xs

theorem subScore_le (c d : Char) : subScore c d ≤ 2 := by
  unfold subScore match_score mismatch_penalty
  split
  · exact le_refl 2
  · norm_num

theorem rowBnd_of_nonpos : ∀ (l : List ℤ) (j : ℤ), 0 ≤ j → (∀ x ∈ l, x ≤ 0) →
    rowBnd j l := by
  intro l
  induction l with
  | nil => intro j _ _; trivial
  | cons x xs ih =>
      intro j hj hall
      refine ⟨le_trans (hall x (List.mem_cons_self x xs)) (by omega), ?_⟩
      exact ih (j + 1) (by omega) (fun y hy => hall y (List.mem_cons_of_mem x hy))

theorem rowBnd_mem : ∀ (l : List ℤ) (j : ℤ), 0 ≤ j → rowBnd j l →
    ∀ x ∈ l, x ≤ 2 * (j + l.length) := by
  intro l
  induction l with
  | nil => intro j _ _ x hx; exact absurd hx (List.not_mem_nil x)
  | cons a as ih =>
      intro j hj hb x hx
      rcases List.mem_cons.mp hx with rfl | hx
      · have := hb.1
        have hlen : (0 : ℤ) ≤ (as.length : ℤ) := Int.ofNat_nonneg _
        simp only [List.length_cons]
        push_cast
        omega
      · have := ih (j + 1) (by omega) hb.2 x hx
        simp only [List.length_cons]
        push_cast at this ⊢
        omega

theorem dpRowAux_bnd (g : ℤ) (hg : 0 ≤ g) (c : Char) :
    ∀ (ds : List Char) (ps : List ℤ) (diag left j : ℤ),
      diag ≤ 2 * j → left ≤ 2 * j → rowBnd (j + 1) ps →
      rowBnd (j + 1) (dpRowAux g c diag left ds ps) := by
  intro ds
  induction ds with
  | nil =>
      intro ps diag left j _ _ _
      cases ps <;> trivial
  | cons d ds ih =>
      intro ps diag left j hdiag hleft hps
      cases ps with
      | nil => trivial
      | cons above ps' =>
          rw [dpRowAux]
          have hsub := subScore_le c d
          have habove := hps.1
          constructor
          · simp only [max_le_iff]
            refine ⟨⟨by omega, by omega⟩, by omega⟩
          · have e : (j + 1) + 1 = j + 1 + 1 := rfl
            refine ih ps' above _ (j + 1) habove ?_ hps.2
            simp only [max_le_iff]
            refine ⟨⟨by omega, by omega⟩, by omega⟩

theorem dpRow_bnd (g : ℤ) (hg : 0 ≤ g) (c : Char) (db : List Char)
    (prev : List ℤ) (hprev : rowBnd 0 prev) : rowBnd 0 (dpRow g c db prev) := by
  cases prev with
  | nil => trivial
  | cons p0 ps =>
      rw [dpRow]
      have hp0 := hprev.1
      refine ⟨by omega, ?_⟩
      exact dpRowAux_bnd g hg c db ps p0 (p0 - g) 0 (by omega) (by omega) hprev.2

theorem sgRows_bnd (g : ℤ) (hg : 0 ≤ g) (db : List Char) :
    ∀ (q : List Char) (row : List ℤ), rowBnd 0 row → rowBnd 0 (sgRows g db q row) := by
  intro q
  induction q with
  | nil => intro row h; exact h
  | cons c cs ih =>
      intro row h
      rw [sgRows]
      exact ih (dpRow g c db row) (dpRow_bnd g hg c db row h)

theorem dpRowAux_length (g : ℤ) (c : Char) :
    ∀ (ds : List Char) (ps : List ℤ) (diag left : ℤ),
      (dpRowAux g c diag left ds ps).length = min ds.length ps.length := by
  intro ds
  induction ds with
  | nil =>
      intro ps diag left
      cases ps <;> simp [dpRowAux]
  | cons d ds ih =>
      intro ps diag left
      cases ps with
      | nil => simp [dpRowAux]
      | cons above ps' =>
          rw [dpRowAux]
          simp only [List.length_cons, ih]
          omega

theorem dpRow_length (g : ℤ) (c : Char) (db : List Char) (prev : List ℤ)
    (h : prev.length = db.length + 1) : (dpRow g c db prev).length = db.length + 1 := by
  cases prev with
  | nil => simp at h
  | cons p0 ps =>
      rw [dpRow]
      simp only [List.length_cons] at h ⊢
      rw [dpRowAux_length]
      omega

theorem sgRows_length (g : ℤ) (db : List Char) :
    ∀ (q : List Char) (row : List ℤ), row.length = db.length + 1 →
      (sgRows g db q row).length = db.length + 1 := by
  intro q
  induction q with
  | nil => intro row h; exact h
  | cons c cs ih =>
      intro row h
      rw [sgRows]
      exact ih _ (dpRow_length g c db row h)

theorem foldl_max_le (C : ℤ) : ∀ (l : List ℤ) (a : ℤ), a ≤ C → (∀ x ∈ l, x ≤ C) →
    l.foldl max a ≤ C := by
  intro l
  induction l with
  | nil => intro a ha _; exact ha
  | cons x xs ih =>
      intro a ha hall
      rw [List.foldl_cons]
      refine ih (max a x) ?_ (fun y hy => hall y (List.mem_cons_of_mem x hy))
      exact max_le ha (hall x (List.mem_cons_self x xs))

theorem listMax_le (l : List ℤ) (C : ℤ) (hC : 0 ≤ C) (hall : ∀ x ∈ l, x ≤ C) :
    listMax l ≤ C := by
  unfold listMax
  refine foldl_max_le C l (l.headD 0) ?_ hall
  cases l with
  | nil => exact hC
  | cons x xs => exact hall x (List.mem_cons_self x xs)

theorem getLastD_le (C : ℤ) : ∀ (l : List ℤ) (d : ℤ), d ≤ C → (∀ x ∈ l, x ≤ C) →
    l.getLastD d ≤ C := by
  intro l
  induction l with
  | nil => intro d hd _; exact hd
  | cons x xs ih =>
      intro d _ hall
      rw [List.getLastD_cons]
      exact ih x (hall x (List.mem_cons_self x xs)) (fun y hy => hall y (List.mem_cons_of_mem x hy))

theorem sgScoreFwd_le (g : ℤ) (hg : 0 ≤ g) (q db : List Char) :
    sgScoreFwd g q db ≤ 2 * ((db.length : ℤ) + 1) := by
  unfold sgScoreFwd
  have hrow0 : rowBnd 0 ((List.range (db.length + 1)).map (fun j : ℕ => -(g * (j : ℤ)))) := by
    refine rowBnd_of_nonpos _ 0 (le_refl 0) ?_
    intro x hx
    rcases List.mem_map.mp hx with ⟨j, -, rfl⟩
    have : (0 : ℤ) ≤ g * (j : ℤ) := mul_nonneg hg (Int.ofNat_nonneg j)
    omega
  have hlen : ((List.range (db.length + 1)).map
      (fun j : ℕ => -(g * (j : ℤ)))).length = db.length + 1 := by
    simp
  have hfin := sgRows_bnd g hg db q _ hrow0
  have hfinlen := sgRows_length g db q _ hlen
  refine listMax_le _ (2 * ((db.length : ℤ) + 1)) (by positivity) ?_
  intro x hx
  have := rowBnd_mem _ 0 (le_refl 0) hfin x hx
  rw [hfinlen] at this
  push_cast at this ⊢
  omega

theorem sgScoreRev_le (g : ℤ) (hg : 0 ≤ g) (q db : List Char) :
    sgScoreRev g q db ≤ 2 * ((db.length : ℤ) + 1) := by
  unfold sgScoreRev
  have hrow0 : rowBnd 0 (List.replicate (db.length + 1) (0 : ℤ)) := by
    refine rowBnd_of_nonpos _ 0 (le_refl 0) ?_
    intro x hx
    rw [List.eq_of_mem_replicate hx]
  have hlen : (List.replicate (db.length + 1) (0 : ℤ)).length = db.length + 1 := by
    simp
  have hfin := sgRows_bnd g hg db q _ hrow0
  have hfinlen := sgRows_length g db q _ hlen
  refine getLastD_le (2 * ((db.length : ℤ) + 1)) _ 0 (by positivity) ?_
  intro x hx
  have := rowBnd_mem _ 0 (le_refl 0) hfin x hx
  rw [hfinlen] at this
  push_cast at this ⊢
  omega

theorem grcScore_le (tr_seq flank_left_seq flank_right_seq motif : List Char) (i : ℤ) :
    grcScore tr_seq flank_left_seq flank_right_seq motif i ≤
      2 * (((flank_left_seq ++ tr_seq ++ flank_right_seq).length : ℤ) + 1) := by
  unfold grcScore
  have hg : (0 : ℤ) ≤ indel_penalty := by unfold indel_penalty; norm_num
  exact max_le (sgScoreFwd_le indel_penalty hg _ _) (sgScoreRev_le indel_penalty hg _ _)

/-! ### The exploration loop drains -/

/-- For any score function bounded above on the non-negative integers,
the exploration loop started from the initial three-entry stack drains
to a non-empty memo table, given enough fuel: the three initial pops are
chained with `grc_chain`, each pop's window conclusion supplying the
next pop's chain invariant. -/
theorem grcLoop_drains (B : ℤ) (s : ℤ → ℤ) (hB : ∀ i : ℤ, 0 ≤ i → s i ≤ B)
    (sc : ℤ) (hsc : 0 ≤ sc) :
    ∃ (fuel : ℕ) (memo : List (ℤ × ℤ)),
      grcLoop s fuel (grcInit sc) [] = some memo ∧ memo ≠ [] := by
  have hOK0 : MemoOK s [] := by
    intro i v h
    simp [memoLookup] at h
  have hinv1 : ChainInv [] sc 0 := by
    unfold ChainInv
    rw [if_neg (by norm_num : ¬ (0 : ℤ) = 1)]
    exact Or.inr ⟨hsc, Or.inr rfl⟩
  obtain ⟨j₁, memo₁, hOK₁, -, -, hwin₁, hrun₁⟩ :=
    grc_chain B s hB (chainM B s sc 0) sc 0 [] (le_refl _) (by omega) hOK0 hinv1
  have hinv2 : ChainInv memo₁ (sc + 1) 1 := by
    unfold ChainInv
    rw [if_pos rfl]
    refine ⟨by omega, ?_⟩
    by_cases h0 : sc = 0
    · exact Or.inr (by omega)
    · refine Or.inl ?_
      have e : sc + 1 - 2 = sc - 1 := by ring
      rw [e, hwin₁ (sc - 1) (by omega) (by omega) (by omega)]
      exact fun hcon => Option.noConfusion hcon
  obtain ⟨j₂, memo₂, hOK₂, -, -, hwin₂, hrun₂⟩ :=
    grc_chain B s hB (chainM B s (sc + 1) 1) (sc + 1) 1 memo₁ (le_refl _) (by omega)
      hOK₁ hinv2
  have hinv3 : ChainInv memo₂ (sc - 1) (-1) := by
    unfold ChainInv
    rw [if_neg (by norm_num : ¬ (-1 : ℤ) = 1)]
    by_cases h0 : sc = 0
    · refine Or.inl ⟨by omega, ?_⟩
      rw [hwin₂ 1 (by norm_num) (by omega) (by omega)]
      exact fun hcon => Option.noConfusion hcon
    · refine Or.inr ⟨by omega, Or.inl ?_⟩
      have e : sc - 1 + 2 = sc + 1 := by ring
      rw [e, hwin₂ (sc + 1) (by omega) (by omega) (by omega)]
      exact fun hcon => Option.noConfusion hcon
  obtain ⟨j₃, memo₃, hOK₃, -, hne₃, hwin₃, hrun₃⟩ :=
    grc_chain B s hB (chainM B s (sc - 1) (-1)) (sc - 1) (-1) memo₂ (le_refl _)
      (by omega) hOK₂ hinv3
  refine ⟨((1 + j₃) + j₂) + j₁, memo₃, ?_, hne₃⟩
  unfold grcInit
  rw [hrun₁ ((1 + j₃) + j₂) [(sc + 1, 1), (sc - 1, -1)],
    hrun₂ (1 + j₃) [(sc - 1, -1)], hrun₃ 1 []]
  rfl

/-- C10: for every motif, flank, and TR-sequence input with
`start_count ≥ 0`, the hill-climb of `get_repeat_count` terminates: the
exploration frontier empties after finitely many iterations (here: some
finite fuel suffices for the embedded loop, which returns `none` exactly
when its fuel runs out before the Python loop would exit), because every
alignment score is bounded above by twice the database length plus two
and a new candidate two steps outward is enqueued only when it is not
yet memoised, and the call then returns an argmax of the memo table. -/
theorem C10_estimator_terminates (start_count : ℤ) (hsc : 0 ≤ start_count)
    (tr_seq flank_left_seq flank_right_seq motif : List Char) :
    ∃ fuel : ℕ,
      (get_repeat_count fuel start_count tr_seq flank_left_seq flank_right_seq
        motif).isSome = true := by
  obtain ⟨fuel, memo, hrun, hne⟩ :=
    grcLoop_drains (2 * (((flank_left_seq ++ tr_seq ++ flank_right_seq).length : ℤ) + 1))
      (grcScore tr_seq flank_left_seq flank_right_seq motif)
      (fun i _ => grcScore_le tr_seq flank_left_seq flank_right_seq motif i)
      start_count hsc
  refine ⟨fuel, ?_⟩
  unfold get_repeat_count grcMemo
  rw [hrun]
  cases memo with
  | nil => exact absurd rfl hne
  | cons a as => rfl

/-- Witness: the theorem's hypothesis discharged at a concrete input. -/
theorem C10_estimator_terminates_witness :
    (0 : ℤ) ≤ 2 ∧
      ∃ fuel : ℕ, (get_repeat_count fuel 2 [] ['A'] [] ['A']).isSome = true :=
  ⟨by norm_num, C10_estimator_terminates 2 (by norm_num) [] ['A'] [] ['A']⟩

end Stronger
